import Mathlib

set_option maxHeartbeats 1000000
set_option maxRecDepth 10000

/-!
Verification development for the Phillies MLB statistics calculator
(`src/main.py`): a shallow embedding of the data pipeline (salary-string
classification, bounded ranked insertion, averaging, currency formatting,
page fetching) together with theorems settling the specification's claims.

Modelling conventions:
* Python `int` salaries become `Int`; the sizes involved never overflow in
  Python, so no modular arithmetic is needed.
* Python exceptions (IndexError in `display_salary`, ValueError in `int`,
  the explicit `raise` in `crawl_page`) become `Option`/`Except` error
  values.
* Python's float division in `average` is modelled as exact division in
  `ℚ`; the claims under scrutiny concern which denominator is used, not
  floating-point rounding.
* Regular-expression matching of `SALARY_RE = r"^\$*\d+(\,?\d+)*$"` via
  `re.search` is embedded as an executable matcher over `List Char`,
  including CPython's semantics of the `$` anchor, which also matches just
  before a single newline at the end of the string, and of `\d`, which in
  a `str` pattern without `re.ASCII` matches every Unicode decimal digit
  (category Nd), not only the ASCII ones — embedded below as the full
  table of decimal-digit blocks of Unicode 14.0 (the table CPython 3.11
  ships).  `int()` converts exactly the same digit set, each digit
  contributing its decimal value.
-/

/-- Tagged salary value.  The Python code stores either an `int` (a valid
salary) or the placeholder string `'No data found'` (a corrupted salary);
`isinstance(p.salary, int)` tests correspond to the `Valid` constructor. -/
inductive SalaryValue where
  | Valid : Int → SalaryValue
  | Corrupted : String → SalaryValue
deriving DecidableEq

/-- A player record, from the frozen dataclass `Player` in `main.py`. -/
structure Player where
  name : String
  salary : SalaryValue
  year : String
  level : String
deriving DecidableEq

/-- `isinstance(salary, int)` from the loop in `crawl_players`. -/
def isValidSalary : SalaryValue → Bool
  | SalaryValue.Valid _ => true
  | SalaryValue.Corrupted _ => false

/-! ### The salary grammar: `SALARY_RE = re.compile(r"^\$*\d+(\,?\d+)*$")` -/

/-- Base code points of the Unicode decimal-digit blocks (general
category Nd) of Unicode 14.0, the character database CPython 3.11 ships:
the decimal digits are exactly 66 aligned blocks of ten consecutive code
points carrying the values 0 through 9.  This is precisely the character
class CPython's `\d` matches in a `str` pattern compiled without
`re.ASCII` (as `SALARY_RE` is), and precisely the digit set `int()`
accepts; the ASCII block `0x30` comes first. -/
def pyDigitBases : List Nat :=
  [0x30, 0x660, 0x6F0, 0x7C0, 0x966, 0x9E6,
   0xA66, 0xAE6, 0xB66, 0xBE6, 0xC66, 0xCE6,
   0xD66, 0xDE6, 0xE50, 0xED0, 0xF20, 0x1040,
   0x1090, 0x17E0, 0x1810, 0x1946, 0x19D0, 0x1A80,
   0x1A90, 0x1B50, 0x1BB0, 0x1C40, 0x1C50, 0xA620,
   0xA8D0, 0xA900, 0xA9D0, 0xA9F0, 0xAA50, 0xABF0,
   0xFF10, 0x104A0, 0x10D30, 0x11066, 0x110F0, 0x11136,
   0x111D0, 0x112F0, 0x11450, 0x114D0, 0x11650, 0x116C0,
   0x11730, 0x118E0, 0x11950, 0x11C50, 0x11D50, 0x11DA0,
   0x16A60, 0x16AC0, 0x16B50, 0x1D7CE, 0x1D7D8, 0x1D7E2,
   0x1D7EC, 0x1D7F6, 0x1E140, 0x1E2F0, 0x1E950, 0x1FBF0]

/-- CPython's `\d` (equally, `int()`'s digit test): membership in one of
the Unicode decimal-digit blocks. -/
def isPyDigit (c : Char) : Bool :=
  pyDigitBases.any (fun b => decide (b ≤ c.toNat) && decide (c.toNat < b + 10))

/-- The decimal value of a Unicode digit: its offset within its block
(`0` on non-digits, which no caller reaches). -/
def pyDigitVal (c : Char) : Nat :=
  match pyDigitBases.find? (fun b => decide (b ≤ c.toNat) && decide (c.toNat < b + 10)) with
  | some b => c.toNat - b
  | none => 0

/-- Numeric value of a string of Unicode decimal digits (most significant
first), as `int()` computes it. -/
def pyStrToNat (l : List Char) : Nat := l.foldl (fun acc c => 10 * acc + pyDigitVal c) 0

/-- Consume the leading `\$*` of the pattern. -/
def dropDollars : List Char → List Char
  | '$' :: rest => dropDollars rest
  | l => l

/-- Matcher for the pattern suffix after its first mandatory digit, i.e.
for `\d*(\,?\d+)*` over the remaining characters.  The Boolean flag
records whether the previous character was a comma (in which case a digit
is mandatory before the string may end or another comma may appear). -/
def matchTail : List Char → Bool → Bool
  | [], afterComma => !afterComma
  | c :: rest, afterComma =>
    if isPyDigit c then matchTail rest false
    else if c = ',' && !afterComma then matchTail rest true
    else false

/-- Whole-string match of `\$*\d+(\,?\d+)*`. -/
def matchSalaryCore (l : List Char) : Bool :=
  match dropDollars l with
  | [] => false
  | c :: rest => isPyDigit c && matchTail rest false

/-- Truthiness of `SALARY_RE.search(s)`.  The pattern is anchored by `^`
and `$`; in CPython, `$` matches at the end of the string and also just
before a newline that ends the string, so the search succeeds exactly when
the whole string matches the core pattern, or the string ends in `'\n'`
and everything before that newline matches. -/
def salary_re_search (s : String) : Bool :=
  matchSalaryCore s.data ||
    (match s.data.getLast? with
     | some c => c = '\n' && matchSalaryCore s.data.dropLast
     | none => false)

/-! ### Integer conversion: `int(salary.replace('$','').replace(',','').replace(' ',''))` -/

/-- Characters kept by the three `replace` calls (everything except `'$'`,
`','` and `' '`). -/
def keepChar (c : Char) : Bool := !(c = '$' || c = ',' || c = ' ')

/-- The chained `replace` calls that strip `'$'`, `','` and `' '`. -/
def stripSalaryChars (l : List Char) : List Char := l.filter keepChar

/-- Numeric value of a string of decimal digit characters (most
significant first). -/
def charsToNat (l : List Char) : Nat := l.foldl (fun acc c => 10 * acc + (c.toNat - 48)) 0

/-- Whitespace stripped by Python's `int()` before parsing. -/
def isPySpace (c : Char) : Bool :=
  c = ' ' || c = '\t' || c = '\n' || c = '\r' || c = '\x0b' || c = '\x0c'

/-- `str.strip()` on both ends, as `int()` performs before parsing. -/
def pyStrip (l : List Char) : List Char :=
  ((l.dropWhile isPySpace).reverse.dropWhile isPySpace).reverse

/-- Python's `int(str)` on a decimal string: strip surrounding whitespace,
allow one optional sign, then require one or more Unicode decimal digits,
each contributing its decimal value; any other shape raises `ValueError`,
modelled as `none`.  (Underscore digit separators, which `int()` also
accepts between digits, never occur in the strings this program feeds to
`int()`; likewise `int()`'s stripped-whitespace set is wider than the six
characters of `isPySpace`, but of it only `'\n'` ever reaches `int()`
here, via the accepted trailing newline.) -/
def pyInt (l : List Char) : Option Int :=
  match pyStrip l with
  | [] => none
  | c :: rest =>
    if c = '-' then
      if !rest.isEmpty && rest.all isPyDigit then some (-(pyStrToNat rest : Int)) else none
    else if c = '+' then
      if !rest.isEmpty && rest.all isPyDigit then some ((pyStrToNat rest : Int)) else none
    else if (c :: rest).all isPyDigit then some ((pyStrToNat (c :: rest) : Int)) else none

/-- The salary-classification portion of `extract_player` (lines 65-70 of
`main.py`): if `SALARY_RE.search` succeeds the text is converted with
`int` after stripping `'$'`, `','` and `' '`; otherwise the salary becomes
the placeholder string.  A `ValueError` escaping `int` would crash the
program; that is the outer `none`. -/
def extract_salary (s : String) : Option SalaryValue :=
  if salary_re_search s then
    (pyInt (stripSalaryChars s.data)).map SalaryValue.Valid
  else some (SalaryValue.Corrupted "No data found")

/-- The four text fields read from one `<tr>` element. -/
structure RawRow where
  name : String
  salary : String
  year : String
  level : String
deriving DecidableEq

/-- `extract_player`: build a `Player` from a row's four text fields. -/
def extract_player (row : RawRow) : Option Player :=
  (extract_salary row.salary).map (fun sv => ⟨row.name, sv, row.year, row.level⟩)

/-! ### Currency formatting: `display_salary` -/

/-- Fuel-driven digit peeling: the `while n:` loop of `display_salary`,
collecting `n % 1000` and updating `n //= 1000` until `n` is zero.  The
fuel only makes the recursion structural; `peel` below always supplies
enough. -/
def peelAux : Nat → Nat → List Nat
  | 0, _ => []
  | fuel + 1, n => if n = 0 then [] else n % 1000 :: peelAux fuel (n / 1000)

/-- The base-1000 digits of `n`, least significant first (the `buffer`
built by `display_salary` before reversal); empty for `n = 0`. -/
def peel (n : Nat) : List Nat := peelAux (n + 1) n

/-- Decimal digit character. -/
def digitChar (d : Nat) : Char := Char.ofNat (48 + d)

/-- Fuel-driven decimal rendering of a natural number (Python's `str` on a
non-negative `int`). -/
def natToCharsAux : Nat → Nat → List Char
  | 0, _ => []
  | fuel + 1, n =>
    if n < 10 then [digitChar n] else natToCharsAux fuel (n / 10) ++ [digitChar (n % 10)]

/-- Decimal digits of `n`, most significant first. -/
def natToChars (n : Nat) : List Char := natToCharsAux (n + 1) n

/-- `'{:03d}'.format(x)`: decimal digits left-padded with `'0'` to width
at least 3. -/
def pad3 (x : Nat) : List Char :=
  List.replicate (3 - (natToChars x).length) '0' ++ natToChars x

/-- `','.join` on character-list chunks. -/
def joinComma (gs : List (List Char)) : List Char := List.intercalate [','] gs

/-- `display_salary` (lines 96-106 of `main.py`): peel base-1000 groups,
reverse, render the leading group bare via `str` and every later group via
`'{:03d}'.format`, then join with commas after a `'$'`.  For input `0` the
buffer is empty and the subscript `buffer[0]` raises `IndexError`,
modelled as `none`. -/
def display_salary (salary : Nat) : Option String :=
  match (peel salary).reverse with
  | [] => none
  | g :: gs => some (String.mk ('$' :: joinComma (natToChars g :: gs.map pad3)))

/-- Modelled from the spec (§4.5 `formatCurrency`), as the reference point
for refinement claims about `display_salary`: the base-1000 digit groups
of the decimal numeral, most significant first (`[0]` for zero, so zero
renders as `"$0"`). -/
def specGroups (n : Nat) : List Nat :=
  if _h : n < 1000 then [n] else specGroups (n / 1000) ++ [n % 1000]
decreasing_by exact Nat.div_lt_self (by omega) (by omega)

/-- Modelled from the spec (§4.5): render a non-negative integer with a
single leading `'$'`, digit groups separated by commas, every group after
the first left-padded with zeros to exactly three digits and the leading
group unpadded. -/
def formatCurrency (n : Nat) : String :=
  match specGroups n with
  | [] => "$"
  | g :: gs => String.mk ('$' :: joinComma (natToChars g :: gs.map pad3))

/-! ### Bounded ordered insertion: `insert_in_limited_array` -/

/-- The comparison lambda `lambda a, b: a.salary > b.salary` passed to
`insert_in_limited_array` by `crawl_players`.  Both salaries are Python
`int`s whenever the lambda is actually applied (only records with `int`
salaries are inserted); comparing an `int` with the placeholder string
would raise `TypeError`, which never happens in the program and is
modelled as `false`. -/
def gtSalary (a b : Player) : Bool :=
  match a.salary, b.salary with
  | SalaryValue.Valid x, SalaryValue.Valid y => x > y
  | _, _ => false

/-- The slot test `item is None or gt(value, item)` from the loop body of
`insert_in_limited_array`. -/
def slotOpen {α : Type} (gt : α → α → Bool) (value : α) : Option α → Bool
  | none => true
  | some item => gt value item

/-- `insert_in_limited_array(value, gt, array)`: scan for the first slot
that is empty (`None`) or whose occupant compares below `value`; splice
`value` in there (`array.insert(i, value)`) and drop the last element
(`array.pop()`).  If no slot qualifies the array is unchanged.  Since the
spliced suffix is non-empty, popping the global last element equals
popping the last element of that suffix, which the recursion exploits. -/
def insert_in_limited_array {α : Type} (gt : α → α → Bool) (value : α) :
    List (Option α) → List (Option α)
  | [] => []
  | x :: rest =>
    if slotOpen gt value x then
      (some value :: x :: rest).dropLast
    else
      x :: insert_in_limited_array gt value rest

/-- Index of the slot at which `insert_in_limited_array` splices the
value: the first position whose slot is `None` or whose occupant compares
below the value; `none` when the scan falls through. -/
def insPos {α : Type} (gt : α → α → Bool) (value : α) : List (Option α) → Option Nat
  | [] => none
  | x :: rest =>
    if slotOpen gt value x then some 0
    else (insPos gt value rest).map (· + 1)

/-! ### The aggregation loop of `crawl_players` and the statistics -/

/-- One iteration of the `for p in players:` loop in `crawl_players`
(lines 210-214): a record with an `int` salary goes through the bounded
insertion, any other record only bumps the corrupted counter. -/
def ingestStep (st : List (Option Player) × Nat) (p : Player) :
    List (Option Player) × Nat :=
  if isValidSalary p.salary then (insert_in_limited_array gtSalary p st.1, st.2)
  else (st.1, st.2 + 1)

/-- The salary of a player as an integer, as the lambdas of
`crawl_players` read it.  On a corrupted record Python would raise
`TypeError` when this value is used; the program only ever applies it to
records with `Valid` salaries, and the junk value `0` is never reached in
the verified runs. -/
def amount (p : Player) : Int :=
  match p.salary with
  | SalaryValue.Valid n => n
  | SalaryValue.Corrupted _ => 0

/-- `average(array, get_value)` with `get_value = lambda x: x.salary`: sum
the salaries of the non-`None` slots, then divide by `len(array)` — the
full slot count, not the occupant count.  Python's float division is
modelled as exact division in `ℚ` (and Python's `ZeroDivisionError` on an
empty array as `ℚ`'s zero denominator; every array the program passes has
length 125). -/
def average (arr : List (Option Player)) : ℚ :=
  ((arr.foldl (fun t x => match x with | some p => t + amount p | none => t) 0 : Int) : ℚ) /
    (arr.length : ℚ)

/-- The externally visible outcome of one `crawl_players` run: the ranked
array `highest_salaries_125`, the counter `n_of_corrupted_salaries`, and
the average `self.avg`. -/
structure RunResult where
  ranked : List (Option Player)
  corruptedCount : Nat
  avg : ℚ
deriving DecidableEq

/-- The processing part of `crawl_players` (lines 206-220), parameterised
by the already-extracted player list: fold the ingestion loop over a fresh
`[None]*125` array, then take the average of the result. -/
def crawl_players (players : List Player) : RunResult :=
  let st := players.foldl ingestStep (List.replicate 125 none, 0)
  ⟨st.1, st.2, average st.1⟩

/-! ### Fetching: `crawl_page` -/

/-- `crawl_page` (lines 42-48), parameterised by the response's status
code and body: any status other than exactly `200` raises (`Except.error`
with the script's message); on `200` the body is handed to the parser. -/
def crawl_page (status : Nat) (body : String) : Except String String :=
  if status ≠ 200 then
    Except.error "Could not retrieve data set. Try again by running the script again."
  else Except.ok body

/-- Modelled from the spec (§4.1): a 2xx-equivalent HTTP status. -/
def is2xx (status : Nat) : Bool := 200 ≤ status && status < 300

/-- One pipeline run at the architecture boundary: fetch, then process
the extracted records; a fetch error aborts the run with no result
snapshot.  (Row extraction is modelled separately by `extract_player`;
here the run is parameterised by the extracted records.) -/
def run (status : Nat) (body : String) (players : List Player) :
    Except String RunResult :=
  (crawl_page status body).map (fun _ => crawl_players players)

/-! ### Specification-side predicates used to state the claims -/

/-- Sum of the `amount`s of the non-empty slots, exactly as the loop in
`average` accumulates `total`. -/
def sumSlots (arr : List (Option Player)) : Int :=
  arr.foldl (fun t x => match x with | some p => t + amount p | none => t) 0

/-- Ordering of adjacent slots in the ranked array: an occupied slot never
sits below a higher-salaried occupied slot, and an empty slot is never
followed by an occupied one (so `List.Pairwise SlotLE` says: descending by
salary, empty slots only at the tail). -/
def SlotLE : Option Player → Option Player → Prop
  | some a, some b => amount b ≤ amount a
  | some _, none => True
  | none, some _ => False
  | none, none => True

/-- Every occupant of the array carries a `Valid` (integer) salary. -/
def allValid (l : List (Option Player)) : Prop :=
  ∀ p : Player, some p ∈ l → isValidSalary p.salary = true

/-- The ranked-array invariant: sorted descending with empty slots at the
tail, and all occupants valid. -/
def Ranked (l : List (Option Player)) : Prop := l.Pairwise SlotLE ∧ allValid l

/-- A record is legitimately absent from the ranked array: the array is at
capacity (no empty slot) and every occupant earns at least as much. -/
def Excluded (p : Player) (l : List (Option Player)) : Prop :=
  (∀ x ∈ l, x ≠ none) ∧ ∀ q : Player, some q ∈ l → amount p ≤ amount q

/-- Modelled from the spec (§4.3): a non-empty string of ASCII digits. -/
def digitsNE (l : List Char) : Prop := l ≠ [] ∧ ∀ c ∈ l, c.isDigit = true

/-- Modelled from the spec (§4.3): one repetition group of the grammar,
`(optional comma)(one or more digits)` — either bare digits or a comma
followed by digits. -/
def isGroup (g : List Char) : Prop :=
  digitsNE g ∨ ∃ d, g = ',' :: d ∧ digitsNE d

/-- Modelled from the spec (§4.3): the salary grammar — zero or more
leading `'$'` characters, then one or more digits, then zero or more
groups of an optional comma followed by one or more digits. -/
def inGrammar (l : List Char) : Prop :=
  ∃ (k : Nat) (d : List Char) (gs : List (List Char)),
    l = List.replicate k '$' ++ d ++ gs.flatten ∧ digitsNE d ∧ ∀ g ∈ gs, isGroup g

/-- A non-empty string of Unicode decimal digits — the `\d+` of the
source's regex with CPython's digit class. -/
def pyDigitsNE (l : List Char) : Prop := l ≠ [] ∧ ∀ c ∈ l, isPyDigit c = true

/-- One repetition group of the source's pattern over CPython's digit
class. -/
def isPyGroup (g : List Char) : Prop :=
  pyDigitsNE g ∨ ∃ d, g = ',' :: d ∧ pyDigitsNE d

/-- The language of the source's pattern `\$*\d+(\,?\d+)*` with
CPython's Unicode `\d`: the spec's grammar with "digit" read as any
Unicode decimal digit.  It strictly contains `inGrammar`. -/
def inPyGrammar (l : List Char) : Prop :=
  ∃ (k : Nat) (d : List Char) (gs : List (List Char)),
    l = List.replicate k '$' ++ d ++ gs.flatten ∧ pyDigitsNE d ∧ ∀ g ∈ gs, isPyGroup g

/-! ## Supporting lemmas -/

theorem insert_in_limited_array_length {α : Type} (gt : α → α → Bool) (value : α) :
    ∀ l : List (Option α), (insert_in_limited_array gt value l).length = l.length := by
  intro l
  induction l with
  | nil => rfl
  | cons x rest ih =>
    by_cases h : slotOpen gt value x = true
    · simp [insert_in_limited_array, h]
    · simp [insert_in_limited_array, h, ih]

theorem ingestStep_length (st : List (Option Player) × Nat) (p : Player) :
    (ingestStep st p).1.length = st.1.length := by
  unfold ingestStep
  by_cases h : isValidSalary p.salary = true
  · simp [h, insert_in_limited_array_length]
  · simp [h]

theorem foldl_ingest_length (ps : List Player) :
    ∀ st : List (Option Player) × Nat, (ps.foldl ingestStep st).1.length = st.1.length := by
  induction ps with
  | nil => intro st; rfl
  | cons p ps ih => intro st; rw [List.foldl_cons, ih, ingestStep_length]

theorem specGroups_of_lt {n : Nat} (h : n < 1000) : specGroups n = [n] := by
  unfold specGroups
  simp [h]

/-! ## C1 — `formatCurrency(0)` -/

/-- C1: the claim says `display_salary` applied to `0` returns `"$0"`.
The code's digit-peeling loop leaves the buffer empty for input `0`, so
`buffer[0]` raises `IndexError`: the model returns `none`, not `"$0"`.
The spec's required rendering (`formatCurrency`, with the mandated special
case) does produce `"$0"`, so the code contradicts the contract at this
input. -/
theorem c1_display_salary_zero_fails :
    display_salary 0 = none ∧ formatCurrency 0 = "$0" := by
  constructor
  · rfl
  · unfold formatCurrency
    rw [specGroups_of_lt (by norm_num)]
    decide

/-! ## C6 — capacity invariant -/

/-- C6: every ingest step preserves the slot count of the ranked array,
and after any full run the array still has exactly 125 slots, hence never
more than 125 occupants. -/
theorem c6_capacity_invariant :
    (∀ (st : List (Option Player) × Nat) (p : Player),
        (ingestStep st p).1.length = st.1.length) ∧
    (∀ ps : List Player, (crawl_players ps).ranked.length = 125 ∧
        ((crawl_players ps).ranked.filter (fun x => x.isSome)).length ≤ 125) := by
  refine ⟨ingestStep_length, fun ps => ?_⟩
  have hlen : (crawl_players ps).ranked.length = 125 := by
    show (ps.foldl ingestStep (List.replicate 125 none, 0)).1.length = 125
    rw [foldl_ingest_length]
    simp
  refine ⟨hlen, ?_⟩
  calc ((crawl_players ps).ranked.filter (fun x => x.isSome)).length
      ≤ (crawl_players ps).ranked.length := List.length_filter_le _ _
    _ = 125 := hlen

/-! ## C7 — fetch status handling -/

/-- C7 counterexample: status `201` is 2xx-equivalent, yet `crawl_page`
raises (the code tests `status_code != 200`, not membership in the 2xx
class), so "fetch succeeds iff the status is 2xx" is false at 201. -/
theorem c7_counterexample :
    is2xx 201 = true ∧ (crawl_page 201 "page").isOk = false := by decide

/-- C7 amended: fetch succeeds exactly on status 200 — for every status
and body, `crawl_page` returns the document iff the status is exactly
`200`, and on any other status (2xx or not) the run yields the fetch
error and produces no result snapshot. -/
theorem c7_fetch_succeeds_iff_200 :
    ∀ (status : Nat) (body : String) (players : List Player),
      ((crawl_page status body).isOk = true ↔ status = 200) ∧
      (status ≠ 200 →
        run status body players =
          Except.error "Could not retrieve data set. Try again by running the script again.") := by
  intro status body players
  by_cases h : status = 200
  · subst h
    constructor
    · simp [crawl_page, Except.isOk, Except.toBool]
    · intro hne; exact absurd rfl hne
  · constructor
    · simp [crawl_page, h, Except.isOk, Except.toBool]
    · intro _
      simp [run, crawl_page, h, Except.map]

/-- Witness for C7: at status 404 the hypothesis `404 ≠ 200` is
dischargeable and the run errors out. -/
theorem c7_witness :
    run 404 "page" [] =
      Except.error "Could not retrieve data set. Try again by running the script again." :=
  (c7_fetch_succeeds_iff_200 404 "page" []).2 (by decide)

/-! ## C8 — corrupted records are counted, never ranked or converted -/

/-- C8: ingesting a record with a corrupted salary increments the
corrupted counter by exactly one and leaves the ranked array untouched;
and a salary string rejected by the grammar's matcher is classified
`Corrupted`, never converted to an integer. -/
theorem c8_corrupted_counted_never_ranked :
    (∀ (st : List (Option Player) × Nat) (p : Player) (r : String),
        p.salary = SalaryValue.Corrupted r → ingestStep st p = (st.1, st.2 + 1)) ∧
    (∀ s : String, salary_re_search s = false →
        extract_salary s = some (SalaryValue.Corrupted "No data found")) := by
  constructor
  · intro st p r hp
    unfold ingestStep
    rw [hp]
    simp [isValidSalary]
  · intro s hs
    unfold extract_salary
    simp [hs]

/-- Witness for C8 at a concrete corrupted record and a concrete rejected
string. -/
theorem c8_witness :
    ingestStep ([none], 0) ⟨"n", SalaryValue.Corrupted "No data found", "2021", "MLB"⟩
      = ([none], 1) ∧
    extract_salary "N/A" = some (SalaryValue.Corrupted "No data found") := by
  constructor
  · have h := c8_corrupted_counted_never_ranked.1 ([none], 0)
      ⟨"n", SalaryValue.Corrupted "No data found", "2021", "MLB"⟩ "No data found" rfl
    simpa using h
  · exact c8_corrupted_counted_never_ranked.2 "N/A" (by decide)

/-! ## C3 — the average divides by the capacity, not the occupant count -/

/-- C3: `average` divides the sum of the non-empty slots' amounts by the
full slot count; on the program's capacity-125 arrays that is always 125,
never the number of occupants.  In particular a run whose only valid
records have salaries 100, 200 and 300 reports `600 / 125 = 24/5 = 4.8`,
not `200`. -/
theorem c3_average_divides_by_capacity :
    (∀ arr : List (Option Player), arr.length = 125 →
        average arr = (sumSlots arr : ℚ) / 125) ∧
    (∀ ps : List Player,
        (crawl_players ps).avg = (sumSlots (crawl_players ps).ranked : ℚ) / 125) ∧
    ((crawl_players [⟨"x", SalaryValue.Valid 100, "2021", "MLB"⟩,
        ⟨"y", SalaryValue.Valid 200, "2021", "MLB"⟩,
        ⟨"z", SalaryValue.Valid 300, "2021", "MLB"⟩]).avg = 24 / 5 ∧
      (crawl_players [⟨"x", SalaryValue.Valid 100, "2021", "MLB"⟩,
        ⟨"y", SalaryValue.Valid 200, "2021", "MLB"⟩,
        ⟨"z", SalaryValue.Valid 300, "2021", "MLB"⟩]).avg ≠ 200) := by
  have hgen : ∀ arr : List (Option Player), arr.length = 125 →
      average arr = (sumSlots arr : ℚ) / 125 := by
    intro arr h
    have : average arr = (sumSlots arr : ℚ) / (arr.length : ℚ) := rfl
    rw [this, h]
    norm_num
  have hrun : ∀ ps : List Player,
      (crawl_players ps).avg = (sumSlots (crawl_players ps).ranked : ℚ) / 125 := by
    intro ps
    apply hgen
    show (ps.foldl ingestStep (List.replicate 125 none, 0)).1.length = 125
    rw [foldl_ingest_length]
    simp
  refine ⟨hgen, hrun, ?_, ?_⟩
  · rw [hrun]
    have h600 : sumSlots (crawl_players [⟨"x", SalaryValue.Valid 100, "2021", "MLB"⟩,
        ⟨"y", SalaryValue.Valid 200, "2021", "MLB"⟩,
        ⟨"z", SalaryValue.Valid 300, "2021", "MLB"⟩]).ranked = 600 := by decide
    rw [h600]
    norm_num
  · rw [hrun]
    have h600 : sumSlots (crawl_players [⟨"x", SalaryValue.Valid 100, "2021", "MLB"⟩,
        ⟨"y", SalaryValue.Valid 200, "2021", "MLB"⟩,
        ⟨"z", SalaryValue.Valid 300, "2021", "MLB"⟩]).ranked = 600 := by decide
    rw [h600]
    norm_num

/-- Witness for C3's capacity hypothesis at a concrete 125-slot array. -/
theorem c3_witness :
    average (List.replicate 125 (none : Option Player))
      = (sumSlots (List.replicate 125 (none : Option Player)) : ℚ) / 125 :=
  c3_average_divides_by_capacity.1 (List.replicate 125 none) (by simp)

/-! ## Regular-expression correctness: the matcher versus the grammar -/

theorem matchTail_digit_cons {c : Char} (rest : List Char) (b : Bool)
    (hc : isPyDigit c = true) : matchTail (c :: rest) b = matchTail rest false := by
  conv_lhs => unfold matchTail
  rw [if_pos hc]

theorem matchTail_comma_cons (rest : List Char) :
    matchTail (',' :: rest) false = matchTail rest true := by
  conv_lhs => unfold matchTail
  rw [if_neg (by decide), if_pos (by decide)]

theorem matchTail_digits_append (ds : List Char) (hds : ∀ c ∈ ds, isPyDigit c = true)
    (r : List Char) : matchTail (ds ++ r) false = matchTail r false := by
  induction ds with
  | nil => rfl
  | cons c t ih =>
    rw [List.cons_append, matchTail_digit_cons _ _ (hds c (by simp)),
      ih (fun x hx => hds x (by simp [hx]))]

theorem matchTail_digitsNE_append {d : List Char} (hd : pyDigitsNE d) (r : List Char)
    (b : Bool) : matchTail (d ++ r) b = matchTail r false := by
  obtain ⟨hne, hdig⟩ := hd
  obtain ⟨c, t, rfl⟩ := List.exists_cons_of_ne_nil hne
  rw [List.cons_append, matchTail_digit_cons _ _ (hdig c (by simp)),
    matchTail_digits_append t (fun x hx => hdig x (by simp [hx]))]

theorem matchTail_flatten_groups (gs : List (List Char)) (h : ∀ g ∈ gs, isPyGroup g) :
    matchTail gs.flatten false = true := by
  induction gs with
  | nil => rfl
  | cons g gs ih =>
    have hg : isPyGroup g := h g (by simp)
    have hgs : ∀ x ∈ gs, isPyGroup x := fun x hx => h x (by simp [hx])
    rw [List.flatten_cons]
    rcases hg with hdig | ⟨d, rfl, hd⟩
    · rw [matchTail_digitsNE_append hdig, ih hgs]
    · rw [List.cons_append, matchTail_comma_cons, matchTail_digitsNE_append hd, ih hgs]

theorem dropDollars_replicate (k : Nat) (l : List Char) :
    dropDollars (List.replicate k '$' ++ l) = dropDollars l := by
  induction k with
  | zero => rfl
  | succ k ih => rw [List.replicate_succ, List.cons_append]; exact ih

theorem dropDollars_cons_ne {c : Char} (t : List Char) (hc : c ≠ '$') :
    dropDollars (c :: t) = c :: t := by
  unfold dropDollars
  split
  · simp_all
  · rfl

theorem ne_of_pyDigit {c x : Char} (hc : isPyDigit c = true) (hx : isPyDigit x = false) :
    c ≠ x := by
  intro h
  subst h
  rw [hc] at hx
  cases hx

/-- The backward direction of the regex correctness: every string of the
pattern's language is accepted by the core matcher. -/
theorem matchSalaryCore_of_inPyGrammar {l : List Char} (h : inPyGrammar l) :
    matchSalaryCore l = true := by
  obtain ⟨k, d, gs, rfl, hd, hgs⟩ := h
  obtain ⟨hne, hdig⟩ := hd
  obtain ⟨c, t, rfl⟩ := List.exists_cons_of_ne_nil hne
  have hc : isPyDigit c = true := hdig c (by simp)
  unfold matchSalaryCore
  rw [List.append_assoc, dropDollars_replicate, List.cons_append,
    dropDollars_cons_ne _ (ne_of_pyDigit hc (by decide))]
  simp only [hc, Bool.true_and]
  rw [matchTail_digits_append t (fun x hx => hdig x (by simp [hx])),
    matchTail_flatten_groups gs hgs]

theorem ne_of_isDigit {c x : Char} (hc : c.isDigit = true) (hx : x.isDigit = false) :
    c ≠ x := by
  intro h
  subst h
  rw [hc] at hx
  cases hx

/-- Decomposition of a successful `matchTail` run into the pattern's
digits and repetition groups (joint statement for both flag values). -/
theorem matchTail_decomp (l : List Char) :
    (matchTail l false = true →
      ∃ ds gs, l = ds ++ List.flatten gs ∧ (∀ c ∈ ds, isPyDigit c = true) ∧
        ∀ g ∈ gs, isPyGroup g) ∧
    (matchTail l true = true →
      ∃ d gs, l = d ++ List.flatten gs ∧ pyDigitsNE d ∧ ∀ g ∈ gs, isPyGroup g) := by
  induction l with
  | nil =>
    constructor
    · intro _
      exact ⟨[], [], by simp, by simp, by simp⟩
    · intro h
      exact absurd h (by decide)
  | cons c rest ih =>
    constructor
    · intro h
      by_cases hc : isPyDigit c = true
      · rw [matchTail_digit_cons _ _ hc] at h
        obtain ⟨ds, gs, heq, hds, hgs⟩ := ih.1 h
        refine ⟨c :: ds, gs, by rw [List.cons_append, heq], ?_, hgs⟩
        intro x hx
        rcases List.mem_cons.mp hx with rfl | hx
        · exact hc
        · exact hds x hx
      · have hcomma : c = ',' := by
          by_contra hne
          have hfalse : matchTail (c :: rest) false = false := by
            conv_lhs => unfold matchTail
            rw [if_neg hc, if_neg (by simp [hne])]
          rw [hfalse] at h
          exact absurd h (by decide)
        subst hcomma
        rw [matchTail_comma_cons] at h
        obtain ⟨d, gs, heq, hd, hgs⟩ := ih.2 h
        refine ⟨[], (',' :: d) :: gs, by simp [heq], by simp, ?_⟩
        intro g hg
        rcases List.mem_cons.mp hg with rfl | hg
        · exact Or.inr ⟨d, rfl, hd⟩
        · exact hgs g hg
    · intro h
      by_cases hc : isPyDigit c = true
      · rw [matchTail_digit_cons _ _ hc] at h
        obtain ⟨ds, gs, heq, hds, hgs⟩ := ih.1 h
        refine ⟨c :: ds, gs, by rw [List.cons_append, heq], ⟨by simp, ?_⟩, hgs⟩
        intro x hx
        rcases List.mem_cons.mp hx with rfl | hx
        · exact hc
        · exact hds x hx
      · exfalso
        have hfalse : matchTail (c :: rest) true = false := by
          conv_lhs => unfold matchTail
          rw [if_neg hc, if_neg (by simp)]
        rw [hfalse] at h
        exact absurd h (by decide)

theorem dropDollars_decomp (l : List Char) :
    ∃ k, l = List.replicate k '$' ++ dropDollars l := by
  induction l with
  | nil => exact ⟨0, rfl⟩
  | cons c t ih =>
    by_cases hc : c = '$'
    · subst hc
      obtain ⟨k, hk⟩ := ih
      refine ⟨k + 1, ?_⟩
      rw [show dropDollars ('$' :: t) = dropDollars t from rfl, List.replicate_succ,
        List.cons_append, ← hk]
    · exact ⟨0, by rw [dropDollars_cons_ne _ hc]; rfl⟩

/-- The forward direction of the regex correctness: every string accepted
by the core matcher lies in the pattern's language. -/
theorem inPyGrammar_of_matchSalaryCore {l : List Char} (h : matchSalaryCore l = true) :
    inPyGrammar l := by
  obtain ⟨k, hk⟩ := dropDollars_decomp l
  unfold matchSalaryCore at h
  cases hdd : dropDollars l with
  | nil =>
    rw [hdd] at h
    exact absurd h (by decide)
  | cons c rest =>
    rw [hdd] at h
    change (isPyDigit c && matchTail rest false) = true at h
    simp only [Bool.and_eq_true] at h
    obtain ⟨hc, ht⟩ := h
    obtain ⟨ds, gs, heq, hds, hgs⟩ := (matchTail_decomp rest).1 ht
    refine ⟨k, c :: ds, gs, ?_, ⟨by simp, ?_⟩, hgs⟩
    · rw [hk, hdd, heq]
      simp
    · intro x hx
      rcases List.mem_cons.mp hx with rfl | hx
      · exact hc
      · exact hds x hx

theorem eq_dropLast_append_of_getLast? {l : List Char} {c : Char}
    (h : l.getLast? = some c) : l = l.dropLast ++ [c] := by
  have hne : l ≠ [] := by
    rintro rfl
    simp at h
  have hlast := List.dropLast_append_getLast hne
  rw [List.getLast?_eq_getLast _ hne] at h
  have hc := Option.some_inj.mp h
  rw [hc] at hlast
  exact hlast.symm

/-- The acceptance condition of `SALARY_RE.search`, characterised: a
string is accepted iff it is in the pattern's language (the grammar over
Unicode decimal digits), or it is such a string followed by one trailing
newline (the CPython `$`-anchor artifact). -/
theorem salary_re_search_iff (s : String) :
    salary_re_search s = true ↔
      (inPyGrammar s.data ∨ ∃ t : List Char, inPyGrammar t ∧ s.data = t ++ ['\n']) := by
  unfold salary_re_search
  constructor
  · intro h
    simp only [Bool.or_eq_true] at h
    rcases h with h1 | h2
    · exact Or.inl (inPyGrammar_of_matchSalaryCore h1)
    · right
      cases hl : s.data.getLast? with
      | none =>
        rw [hl] at h2
        simp at h2
      | some c =>
        rw [hl] at h2
        change (decide (c = Char.ofNat 10) && matchSalaryCore s.data.dropLast) = true at h2
        simp only [Bool.and_eq_true, decide_eq_true_eq] at h2
        obtain ⟨rfl, hm⟩ := h2
        exact ⟨s.data.dropLast, inPyGrammar_of_matchSalaryCore hm,
          eq_dropLast_append_of_getLast? hl⟩
  · intro h
    simp only [Bool.or_eq_true]
    rcases h with hg | ⟨t, hg, heq⟩
    · exact Or.inl (matchSalaryCore_of_inPyGrammar hg)
    · right
      rw [heq, List.getLast?_concat, List.dropLast_concat]
      simp [matchSalaryCore_of_inPyGrammar hg]

theorem inGrammar_chars {l : List Char} (h : inGrammar l) :
    ∀ c ∈ l, c = '$' ∨ c.isDigit = true ∨ c = ',' := by
  obtain ⟨k, d, gs, rfl, hd, hgs⟩ := h
  intro c hc
  rcases List.mem_append.mp hc with hc1 | hc2
  · rcases List.mem_append.mp hc1 with hc3 | hc4
    · exact Or.inl (List.eq_of_mem_replicate hc3)
    · exact Or.inr (Or.inl (hd.2 c hc4))
  · obtain ⟨g, hg, hcg⟩ := List.mem_flatten.mp hc2
    rcases hgs g hg with hdig | ⟨d', rfl, hd'⟩
    · exact Or.inr (Or.inl (hdig.2 c hcg))
    · rcases List.mem_cons.mp hcg with rfl | hcd
      · exact Or.inr (Or.inr rfl)
      · exact Or.inr (Or.inl (hd'.2 c hcd))

theorem keepChar_of_digit {c : Char} (hc : c.isDigit = true) : keepChar c = true := by
  unfold keepChar
  have h1 : c ≠ '$' := ne_of_isDigit hc (by decide)
  have h2 : c ≠ ',' := ne_of_isDigit hc (by decide)
  have h3 : c ≠ ' ' := ne_of_isDigit hc (by decide)
  simp [h1, h2, h3]

/-- On a grammar string, stripping `'$'`, `','` and `' '` leaves a
non-empty string of digits. -/
theorem stripSalaryChars_of_inGrammar {l : List Char} (h : inGrammar l) :
    stripSalaryChars l ≠ [] ∧ ∀ c ∈ stripSalaryChars l, c.isDigit = true := by
  constructor
  · obtain ⟨k, d, gs, heq, hd, hgs⟩ := h
    obtain ⟨c, t, rfl⟩ := List.exists_cons_of_ne_nil hd.1
    have hc : c.isDigit = true := hd.2 c (by simp)
    have hmem : c ∈ stripSalaryChars l := by
      apply List.mem_filter.mpr
      exact ⟨by rw [heq]; simp, keepChar_of_digit hc⟩
    exact List.ne_nil_of_mem hmem
  · intro c hc
    have hmem := List.mem_filter.mp hc
    rcases inGrammar_chars h c hmem.1 with rfl | hdig | rfl
    · exact absurd hmem.2 (by decide)
    · exact hdig
    · exact absurd hmem.2 (by decide)

theorem isPySpace_eq_false_of_pyDigit {c : Char} (hc : isPyDigit c = true) :
    isPySpace c = false := by
  unfold isPySpace
  have h1 : c ≠ ' ' := ne_of_pyDigit hc (by decide)
  have h2 : c ≠ '\t' := ne_of_pyDigit hc (by decide)
  have h3 : c ≠ '\n' := ne_of_pyDigit hc (by decide)
  have h4 : c ≠ '\r' := ne_of_pyDigit hc (by decide)
  have h5 : c ≠ '\x0b' := ne_of_pyDigit hc (by decide)
  have h6 : c ≠ '\x0c' := ne_of_pyDigit hc (by decide)
  simp [h1, h2, h3, h4, h5, h6]

theorem dropWhile_eq_self_of_false {p : Char → Bool} :
    ∀ l : List Char, (∀ c ∈ l, p c = false) → l.dropWhile p = l
  | [], _ => rfl
  | c :: t, h => by
    rw [List.dropWhile_cons, if_neg (by simp [h c (by simp)])]

theorem pyStrip_of_pyDigits {l : List Char} (hd : ∀ c ∈ l, isPyDigit c = true) :
    pyStrip l = l := by
  unfold pyStrip
  have h1 : ∀ c ∈ l, isPySpace c = false :=
    fun c hc => isPySpace_eq_false_of_pyDigit (hd c hc)
  rw [dropWhile_eq_self_of_false l h1,
    dropWhile_eq_self_of_false l.reverse (fun c hc => h1 c (List.mem_reverse.mp hc)),
    List.reverse_reverse]

/-- An ASCII digit sits between code points 48 and 57. -/
theorem char_isDigit_toNat {c : Char} (h : c.isDigit = true) :
    48 ≤ c.toNat ∧ c.toNat < 58 := by
  unfold Char.isDigit at h
  simp only [Bool.and_eq_true, decide_eq_true_eq, ge_iff_le] at h
  obtain ⟨h1, h2⟩ := h
  have g1 : (48 : UInt32).toNat ≤ c.val.toNat := h1
  have g2 : c.val.toNat ≤ (57 : UInt32).toNat := h2
  have e1 : (48 : UInt32).toNat = 48 := rfl
  have e2 : (57 : UInt32).toNat = 57 := rfl
  unfold Char.toNat
  omega

/-- The ASCII digits are Unicode decimal digits (the block at `0x30`). -/
theorem isPyDigit_of_isDigit {c : Char} (h : c.isDigit = true) : isPyDigit c = true := by
  obtain ⟨h1, h2⟩ := char_isDigit_toNat h
  unfold isPyDigit
  rw [List.any_eq_true]
  refine ⟨48, by decide, ?_⟩
  rw [Bool.and_eq_true, decide_eq_true_eq, decide_eq_true_eq]
  omega

/-- On an ASCII digit the Unicode digit value is the code-point offset
from `'0'`. -/
theorem pyDigitVal_of_isDigit {c : Char} (h : c.isDigit = true) :
    pyDigitVal c = c.toNat - 48 := by
  obtain ⟨h1, h2⟩ := char_isDigit_toNat h
  unfold pyDigitVal pyDigitBases
  rw [List.find?_cons_of_pos]
  rw [Bool.and_eq_true, decide_eq_true_eq, decide_eq_true_eq]
  omega

/-- On all-ASCII digit strings `int()`'s Unicode valuation agrees with the
ASCII valuation used by the formatting development. -/
theorem pyStrToNat_eq_charsToNat :
    ∀ l : List Char, (∀ c ∈ l, c.isDigit = true) → pyStrToNat l = charsToNat l := by
  have haux : ∀ (l : List Char) (acc : Nat), (∀ c ∈ l, c.isDigit = true) →
      l.foldl (fun a c => 10 * a + pyDigitVal c) acc
        = l.foldl (fun a c => 10 * a + (c.toNat - 48)) acc := by
    intro l
    induction l with
    | nil => intro acc _; rfl
    | cons c t ih =>
      intro acc h
      rw [List.foldl_cons, List.foldl_cons, pyDigitVal_of_isDigit (h c (by simp)),
        ih _ (fun x hx => h x (by simp [hx]))]
  intro l h
  exact haux l 0 h

/-- The spec's (ASCII) grammar is contained in the pattern's language. -/
theorem inPyGrammar_of_inGrammar {l : List Char} (h : inGrammar l) : inPyGrammar l := by
  obtain ⟨k, d, gs, rfl, hd, hgs⟩ := h
  refine ⟨k, d, gs, rfl, ⟨hd.1, fun c hc => isPyDigit_of_isDigit (hd.2 c hc)⟩, ?_⟩
  intro g hg
  rcases hgs g hg with h1 | ⟨d2, rfl, hd2⟩
  · exact Or.inl ⟨h1.1, fun c hc => isPyDigit_of_isDigit (h1.2 c hc)⟩
  · exact Or.inr ⟨d2, rfl, hd2.1, fun c hc => isPyDigit_of_isDigit (hd2.2 c hc)⟩

theorem inPyGrammar_chars {l : List Char} (h : inPyGrammar l) :
    ∀ c ∈ l, c = '$' ∨ isPyDigit c = true ∨ c = ',' := by
  obtain ⟨k, d, gs, rfl, hd, hgs⟩ := h
  intro c hc
  rcases List.mem_append.mp hc with hc1 | hc2
  · rcases List.mem_append.mp hc1 with hc3 | hc4
    · exact Or.inl (List.eq_of_mem_replicate hc3)
    · exact Or.inr (Or.inl (hd.2 c hc4))
  · obtain ⟨g, hg, hcg⟩ := List.mem_flatten.mp hc2
    rcases hgs g hg with hdig | ⟨d2, rfl, hd2⟩
    · exact Or.inr (Or.inl (hdig.2 c hcg))
    · rcases List.mem_cons.mp hcg with rfl | hcd
      · exact Or.inr (Or.inr rfl)
      · exact Or.inr (Or.inl (hd2.2 c hcd))

theorem keepChar_of_pyDigit {c : Char} (hc : isPyDigit c = true) : keepChar c = true := by
  unfold keepChar
  have h1 : c ≠ '$' := ne_of_pyDigit hc (by decide)
  have h2 : c ≠ ',' := ne_of_pyDigit hc (by decide)
  have h3 : c ≠ ' ' := ne_of_pyDigit hc (by decide)
  simp [h1, h2, h3]

/-- On a string of the pattern's language, stripping `'$'`, `','` and
`' '` leaves a non-empty string of Unicode decimal digits. -/
theorem stripSalaryChars_of_inPyGrammar {l : List Char} (h : inPyGrammar l) :
    stripSalaryChars l ≠ [] ∧ ∀ c ∈ stripSalaryChars l, isPyDigit c = true := by
  constructor
  · obtain ⟨k, d, gs, heq, hd, hgs⟩ := h
    obtain ⟨c, t, rfl⟩ := List.exists_cons_of_ne_nil hd.1
    have hc : isPyDigit c = true := hd.2 c (by simp)
    have hmem : c ∈ stripSalaryChars l := by
      apply List.mem_filter.mpr
      exact ⟨by rw [heq]; simp, keepChar_of_pyDigit hc⟩
    exact List.ne_nil_of_mem hmem
  · intro c hc
    have hmem := List.mem_filter.mp hc
    rcases inPyGrammar_chars h c hmem.1 with rfl | hdig | rfl
    · exact absurd hmem.2 (by decide)
    · exact hdig
    · exact absurd hmem.2 (by decide)

/-- Python's `int` succeeds on any non-empty string of Unicode decimal
digits and returns its value. -/
theorem pyInt_pyDigits {l : List Char} (hne : l ≠ []) (hd : ∀ c ∈ l, isPyDigit c = true) :
    pyInt l = some ((pyStrToNat l : Int)) := by
  unfold pyInt
  rw [pyStrip_of_pyDigits hd]
  obtain ⟨c, t, rfl⟩ := List.exists_cons_of_ne_nil hne
  have hc : isPyDigit c = true := hd c (by simp)
  have h1 : c ≠ '-' := ne_of_pyDigit hc (by decide)
  have h2 : c ≠ '+' := ne_of_pyDigit hc (by decide)
  have h3 : (c :: t).all isPyDigit = true := by
    simpa [List.all_eq_true] using hd
  simp [h1, h2, h3]

/-- Python's `int` on a non-empty all-ASCII-digit string returns the ASCII
decimal value. -/
theorem pyInt_digits {l : List Char} (hne : l ≠ []) (hd : ∀ c ∈ l, c.isDigit = true) :
    pyInt l = some ((charsToNat l : Int)) := by
  rw [pyInt_pyDigits hne (fun c hc => isPyDigit_of_isDigit (hd c hc)),
    pyStrToNat_eq_charsToNat l hd]

/-- C4 counterexamples: the classifier accepts strings outside the
claimed grammar in two ways.  `"123\n"` is not in the grammar (it
contains a newline), yet CPython's `$` anchor matches just before the
trailing newline, so it is accepted and converts to `123`.  `"٣"`
(ARABIC-INDIC DIGIT THREE, U+0663) contains no ASCII digit, so it is not
in the grammar either, yet CPython's Unicode `\d` matches it and `int()`
converts it to `3`.  Each refutes the "accepts iff in the grammar"
biconditional. -/
theorem c4_counterexample :
    (extract_salary "123\n" = some (SalaryValue.Valid 123) ∧ ¬ inGrammar ("123\n".data)) ∧
    (extract_salary "٣" = some (SalaryValue.Valid 3) ∧ ¬ inGrammar ("٣".data)) := by
  refine ⟨⟨by decide, ?_⟩, by decide, ?_⟩
  · intro h
    have hch := inGrammar_chars h '\n' (by decide)
    rcases hch with h1 | h1 | h1 <;> exact absurd h1 (by decide)
  · intro h
    have hch := inGrammar_chars h '٣' (by decide)
    rcases hch with h1 | h1 | h1 <;> exact absurd h1 (by decide)

/-- C4 amended: the classifier accepts a string iff it is in the
pattern's language — zero or more `'$'`, one or more **Unicode decimal
digits** (CPython's `\d`), zero or more groups of an optional comma and
one or more such digits — or it is such a string followed by a single
trailing newline (an artifact of CPython's `$` anchor).  The claim's
ASCII grammar is contained in this acceptance set; every accepted string
of the pattern's language converts, without error, to the value of the
digits that remain after stripping `'$'`, `','` and `' '` (each Unicode
digit contributing its decimal value, which on ASCII strings is exactly
the claimed stripped integer).  The claim's concrete examples behave as
stated, and `"٣"` converts to `3`. -/
theorem c4_grammar_acceptance_amended :
    (∀ s : String, salary_re_search s = true ↔
        (inPyGrammar s.data ∨ ∃ t : List Char, inPyGrammar t ∧ s.data = t ++ ['\n'])) ∧
    (∀ l : List Char, inGrammar l → inPyGrammar l) ∧
    (∀ s : String, inPyGrammar s.data →
        extract_salary s = some (SalaryValue.Valid (pyStrToNat (stripSalaryChars s.data)))) ∧
    (∀ s : String, inGrammar s.data →
        extract_salary s = some (SalaryValue.Valid (charsToNat (stripSalaryChars s.data)))) ∧
    (extract_salary "$1,234,567" = some (SalaryValue.Valid 1234567) ∧
      extract_salary "12345" = some (SalaryValue.Valid 12345) ∧
      extract_salary "$$123" = some (SalaryValue.Valid 123) ∧
      extract_salary "$1,23,456" = some (SalaryValue.Valid 123456) ∧
      extract_salary "٣" = some (SalaryValue.Valid 3) ∧
      extract_salary "N/A" = some (SalaryValue.Corrupted "No data found") ∧
      extract_salary "$-100" = some (SalaryValue.Corrupted "No data found") ∧
      extract_salary "" = some (SalaryValue.Corrupted "No data found")) := by
  have hpyconv : ∀ s : String, inPyGrammar s.data →
      extract_salary s = some (SalaryValue.Valid (pyStrToNat (stripSalaryChars s.data))) := by
    intro s hg
    have hsearch : salary_re_search s = true :=
      (salary_re_search_iff s).mpr (Or.inl hg)
    obtain ⟨hne, hd⟩ := stripSalaryChars_of_inPyGrammar hg
    unfold extract_salary
    rw [if_pos hsearch]
    unfold stripSalaryChars at hne hd ⊢
    rw [pyInt_pyDigits hne hd]
    rfl
  have hconv : ∀ s : String, inGrammar s.data →
      extract_salary s = some (SalaryValue.Valid (charsToNat (stripSalaryChars s.data))) := by
    intro s hg
    rw [hpyconv s (inPyGrammar_of_inGrammar hg),
      pyStrToNat_eq_charsToNat _ (stripSalaryChars_of_inGrammar hg).2]
  exact ⟨salary_re_search_iff, fun _ => inPyGrammar_of_inGrammar, hpyconv, hconv,
    by decide, by decide, by decide, by decide, by decide, by decide, by decide, by decide⟩

/-- Witness for C4's conversion hypotheses at the concrete grammar string
`"12345"`. -/
theorem c4_witness :
    extract_salary "12345" = some (SalaryValue.Valid (charsToNat (stripSalaryChars "12345".data))) :=
  c4_grammar_acceptance_amended.2.2.2.1 "12345"
    ⟨0, "12345".data, [], by simp, ⟨by decide, by decide⟩, by simp⟩

/-! ## Formatting: the digit-peeling loop versus the spec's grouping -/

theorem specGroups_of_ge {n : Nat} (h : ¬ n < 1000) :
    specGroups n = specGroups (n / 1000) ++ [n % 1000] := by
  conv_lhs => unfold specGroups
  simp [h]

theorem peelAux_congr : ∀ f1 f2 n : Nat, n < f1 → n < f2 → peelAux f1 n = peelAux f2 n := by
  intro f1
  induction f1 with
  | zero => intro f2 n h1 _; exact absurd h1 (Nat.not_lt_zero n)
  | succ f1 ih =>
    intro f2 n h1 h2
    cases f2 with
    | zero => exact absurd h2 (Nat.not_lt_zero n)
    | succ f2 =>
      unfold peelAux
      by_cases hn : n = 0
      · simp [hn]
      · rw [if_neg hn, if_neg hn]
        have hdiv : n / 1000 < n := Nat.div_lt_self (Nat.pos_of_ne_zero hn) (by norm_num)
        congr 1
        exact ih f2 (n / 1000) (by omega) (by omega)

theorem peel_eq_cons {n : Nat} (h : n ≠ 0) : peel n = n % 1000 :: peel (n / 1000) := by
  unfold peel
  conv_lhs => unfold peelAux
  rw [if_neg h]
  have hdiv : n / 1000 < n := Nat.div_lt_self (Nat.pos_of_ne_zero h) (by norm_num)
  congr 1
  exact peelAux_congr n (n / 1000 + 1) (n / 1000) (by omega) (by omega)

theorem specGroups_eq_rev_peel : ∀ n : Nat, n ≠ 0 → specGroups n = (peel n).reverse := by
  intro n
  induction n using Nat.strong_induction_on with
  | _ n ih =>
    intro hn
    by_cases h : n < 1000
    · rw [specGroups_of_lt h, peel_eq_cons hn, Nat.div_eq_of_lt h, Nat.mod_eq_of_lt h]
      rfl
    · have hdiv : n / 1000 < n := Nat.div_lt_self (Nat.pos_of_ne_zero hn) (by norm_num)
      have hpos : n / 1000 ≠ 0 := by
        have : 1000 / 1000 ≤ n / 1000 := Nat.div_le_div_right (Nat.le_of_not_lt h)
        omega
      rw [specGroups_of_ge h, ih (n / 1000) hdiv hpos, peel_eq_cons hn, List.reverse_cons]

theorem specGroups_ne_nil (n : Nat) : specGroups n ≠ [] := by
  by_cases h : n < 1000
  · rw [specGroups_of_lt h]; simp
  · rw [specGroups_of_ge h]; simp

/-- For every positive amount the program's `display_salary` agrees with
the spec's `formatCurrency`. -/
theorem display_salary_eq_formatCurrency {n : Nat} (h : n ≠ 0) :
    display_salary n = some (formatCurrency n) := by
  unfold display_salary formatCurrency
  rw [← specGroups_eq_rev_peel n h]
  cases hsg : specGroups n with
  | nil => exact absurd hsg (specGroups_ne_nil n)
  | cons g gs => rfl

/-! ## C9 — currency formatting of positive integers -/

/-- C9: for every positive integer the renderer produces exactly the
spec's format — a single leading `'$'`, base-1000 digit groups of the
decimal numeral separated by commas, every group after the first
zero-padded to three digits, the leading group unpadded — and in
particular `999 ↦ "$999"` and `1234567 ↦ "$1,234,567"`. -/
theorem c9_currency_formatting :
    (∀ n : Nat, 1 ≤ n → display_salary n = some (formatCurrency n)) ∧
    display_salary 999 = some "$999" ∧
    display_salary 1234567 = some "$1,234,567" :=
  ⟨fun _ hn => display_salary_eq_formatCurrency (by omega), by decide, by decide⟩

/-- Witness for C9 at the concrete positive amount 43210. -/
theorem c9_witness : display_salary 43210 = some (formatCurrency 43210) :=
  c9_currency_formatting.1 43210 (by norm_num)

/-! ## Decimal rendering: values, digits, lengths -/

theorem natToCharsAux_congr : ∀ f1 f2 n : Nat, n < f1 → n < f2 →
    natToCharsAux f1 n = natToCharsAux f2 n := by
  intro f1
  induction f1 with
  | zero => intro f2 n h1 _; exact absurd h1 (Nat.not_lt_zero n)
  | succ f1 ih =>
    intro f2 n h1 h2
    cases f2 with
    | zero => exact absurd h2 (Nat.not_lt_zero n)
    | succ f2 =>
      unfold natToCharsAux
      by_cases hn : n < 10
      · simp [hn]
      · rw [if_neg hn, if_neg hn]
        have hdiv : n / 10 < n := Nat.div_lt_self (by omega) (by norm_num)
        congr 1
        exact ih f2 (n / 10) (by omega) (by omega)

theorem natToChars_of_lt {n : Nat} (h : n < 10) : natToChars n = [digitChar n] := by
  unfold natToChars
  conv_lhs => unfold natToCharsAux
  rw [if_pos h]

theorem natToChars_of_ge {n : Nat} (h : ¬ n < 10) :
    natToChars n = natToChars (n / 10) ++ [digitChar (n % 10)] := by
  unfold natToChars
  conv_lhs => unfold natToCharsAux
  rw [if_neg h]
  have hdiv : n / 10 < n := Nat.div_lt_self (by omega) (by norm_num)
  congr 1
  exact natToCharsAux_congr n (n / 10 + 1) (n / 10) (by omega) (by omega)

theorem digitChar_isDigit {d : Nat} (h : d < 10) : (digitChar d).isDigit = true := by
  interval_cases d <;> decide

theorem digitChar_toNat {d : Nat} (h : d < 10) : (digitChar d).toNat = 48 + d := by
  interval_cases d <;> decide

theorem natToChars_ne_nil (n : Nat) : natToChars n ≠ [] := by
  by_cases h : n < 10
  · rw [natToChars_of_lt h]; simp
  · rw [natToChars_of_ge h]; simp

theorem natToChars_digits : ∀ n : Nat, ∀ c ∈ natToChars n, c.isDigit = true := by
  intro n
  induction n using Nat.strong_induction_on with
  | _ n ih =>
    intro c hc
    by_cases h : n < 10
    · rw [natToChars_of_lt h] at hc
      rcases List.mem_singleton.mp hc with rfl
      exact digitChar_isDigit h
    · rw [natToChars_of_ge h] at hc
      rcases List.mem_append.mp hc with hc1 | hc2
      · exact ih (n / 10) (Nat.div_lt_self (by omega) (by norm_num)) c hc1
      · rcases List.mem_singleton.mp hc2 with rfl
        exact digitChar_isDigit (Nat.mod_lt _ (by norm_num))

theorem charsToNat_foldl_acc : ∀ (l : List Char) (acc : Nat),
    l.foldl (fun a c => 10 * a + (c.toNat - 48)) acc = acc * 10 ^ l.length + charsToNat l := by
  intro l
  induction l with
  | nil => intro acc; simp [charsToNat]
  | cons c t ih =>
    intro acc
    have h1 : charsToNat (c :: t) = (c.toNat - 48) * 10 ^ t.length + charsToNat t := by
      show List.foldl (fun a c => 10 * a + (c.toNat - 48)) 0 (c :: t) = _
      rw [List.foldl_cons, ih (10 * 0 + (c.toNat - 48))]
      ring_nf
    rw [List.foldl_cons, ih (10 * acc + (c.toNat - 48)), h1, List.length_cons]
    ring

theorem charsToNat_append (a b : List Char) :
    charsToNat (a ++ b) = charsToNat a * 10 ^ b.length + charsToNat b := by
  unfold charsToNat
  rw [List.foldl_append]
  exact charsToNat_foldl_acc b _

theorem charsToNat_natToChars : ∀ n : Nat, charsToNat (natToChars n) = n := by
  intro n
  induction n using Nat.strong_induction_on with
  | _ n ih =>
    by_cases h : n < 10
    · rw [natToChars_of_lt h]
      have hd := digitChar_toNat h
      simp [charsToNat, hd]
    · rw [natToChars_of_ge h, charsToNat_append]
      have hd := digitChar_toNat (Nat.mod_lt n (show 0 < 10 by norm_num))
      have hv : charsToNat [digitChar (n % 10)] = n % 10 := by
        simp [charsToNat, hd]
      rw [hv, ih (n / 10) (Nat.div_lt_self (by omega) (by norm_num))]
      simp
      omega

theorem natToChars_length_le : ∀ k n : Nat, n < 10 ^ (k + 1) →
    (natToChars n).length ≤ k + 1 := by
  intro k
  induction k with
  | zero =>
    intro n h
    rw [natToChars_of_lt (by simpa using h)]
    simp
  | succ k ih =>
    intro n h
    by_cases h10 : n < 10
    · rw [natToChars_of_lt h10]; simp
    · rw [natToChars_of_ge h10, List.length_append]
      have hdiv : n / 10 < 10 ^ (k + 1) := by
        rw [Nat.div_lt_iff_lt_mul (by norm_num)]
        calc n < 10 ^ (k + 2) := h
          _ = 10 ^ (k + 1) * 10 := by ring
      have := ih (n / 10) hdiv
      simp only [List.length_singleton]
      omega

theorem pad3_digits (x : Nat) : ∀ c ∈ pad3 x, c.isDigit = true := by
  intro c hc
  rcases List.mem_append.mp hc with hc1 | hc2
  · rcases List.eq_of_mem_replicate hc1 with rfl
    decide
  · exact natToChars_digits x c hc2

theorem pad3_ne_nil (x : Nat) : pad3 x ≠ [] := by
  unfold pad3
  simp [natToChars_ne_nil x]

theorem pad3_length {x : Nat} (h : x < 1000) : (pad3 x).length = 3 := by
  unfold pad3
  rw [List.length_append, List.length_replicate]
  have := natToChars_length_le 2 x (by norm_num; omega)
  omega

theorem charsToNat_replicate_zero : ∀ k : Nat, charsToNat (List.replicate k '0') = 0 := by
  intro k
  induction k with
  | zero => rfl
  | succ k ih =>
    rw [List.replicate_succ]
    unfold charsToNat at ih ⊢
    rw [List.foldl_cons]
    simpa using ih

theorem charsToNat_pad3 (x : Nat) : charsToNat (pad3 x) = x := by
  unfold pad3
  rw [charsToNat_append, charsToNat_replicate_zero, charsToNat_natToChars]
  simp

/-- Value of the rendered group list: reading the digits of the leading
group followed by the padded later groups recovers the original number. -/
theorem charsToNat_flatten_specGroups : ∀ n g gs, specGroups n = g :: gs →
    charsToNat (List.flatten (natToChars g :: gs.map pad3)) = n := by
  intro n
  induction n using Nat.strong_induction_on with
  | _ n ih =>
    intro g gs hsg
    by_cases h : n < 1000
    · rw [specGroups_of_lt h] at hsg
      injection hsg with h1 h2
      subst h1
      subst h2
      simp [charsToNat_natToChars]
    · rw [specGroups_of_ge h] at hsg
      obtain ⟨g', gs', hsg'⟩ : ∃ g' gs', specGroups (n / 1000) = g' :: gs' := by
        cases hx : specGroups (n / 1000) with
        | nil => exact absurd hx (specGroups_ne_nil _)
        | cons a b => exact ⟨a, b, rfl⟩
      rw [hsg', List.cons_append] at hsg
      injection hsg with h1 h2
      subst h2
      rw [h1] at hsg'
      have hdiv : n / 1000 < n := Nat.div_lt_self (by omega) (by norm_num)
      have hsplit : List.flatten (natToChars g :: (gs' ++ [n % 1000]).map pad3)
          = List.flatten (natToChars g :: gs'.map pad3) ++ pad3 (n % 1000) := by
        simp
      rw [hsplit, charsToNat_append, charsToNat_pad3,
        pad3_length (Nat.mod_lt n (show 0 < 1000 by norm_num)),
        ih (n / 1000) hdiv g gs' hsg']
      have hpow : (10 : Nat) ^ 3 = 1000 := by norm_num
      rw [hpow]
      omega

/-! ## C10 — classifying a formatted string recovers the amount -/

theorem joinComma_eq : ∀ (ls : List (List Char)) (l : List Char),
    joinComma (l :: ls) = l ++ (ls.map (fun g => ',' :: g)).flatten := by
  intro ls
  induction ls with
  | nil => intro l; simp [joinComma, List.intercalate]
  | cons l2 t ih =>
    intro l
    have h1 : joinComma (l :: l2 :: t) = l ++ ',' :: joinComma (l2 :: t) := by
      simp [joinComma, List.intercalate]
    rw [h1, ih l2]
    simp

theorem filter_keep_comma_chunks : ∀ ls : List (List Char),
    (∀ l ∈ ls, ∀ c ∈ l, c.isDigit = true) →
    ((ls.map (fun g => ',' :: g)).flatten).filter keepChar = ls.flatten := by
  intro ls
  induction ls with
  | nil => intro _; rfl
  | cons l t ih =>
    intro h
    rw [List.map_cons, List.flatten_cons, List.filter_append, List.flatten_cons,
      List.filter_cons]
    rw [if_neg (by decide : ¬ (keepChar ',' = true))]
    congr 1
    · exact List.filter_eq_self.mpr (fun c hc => keepChar_of_digit (h l (by simp) c hc))
    · exact ih (fun l' hl' c hc => h l' (by simp [hl']) c hc)

theorem stripSalaryChars_render (g : Nat) (gs : List Nat) :
    stripSalaryChars ('$' :: joinComma (natToChars g :: gs.map pad3))
      = List.flatten (natToChars g :: gs.map pad3) := by
  unfold stripSalaryChars
  rw [List.filter_cons]
  rw [if_neg (by decide : ¬ (keepChar '$' = true))]
  rw [joinComma_eq, List.filter_append, List.flatten_cons]
  congr 1
  · exact List.filter_eq_self.mpr (fun c hc => keepChar_of_digit (natToChars_digits g c hc))
  · exact filter_keep_comma_chunks (gs.map pad3) (fun l hl c hc => by
      obtain ⟨x, _, rfl⟩ := List.mem_map.mp hl
      exact pad3_digits x c hc)

theorem inGrammar_render (g : Nat) (gs : List Nat) :
    inGrammar ('$' :: joinComma (natToChars g :: gs.map pad3)) := by
  refine ⟨1, natToChars g, (gs.map pad3).map (fun d => ',' :: d), ?_, ?_, ?_⟩
  · rw [joinComma_eq]
    simp
  · exact ⟨natToChars_ne_nil g, natToChars_digits g⟩
  · intro gg hgg
    obtain ⟨d, hd, rfl⟩ := List.mem_map.mp hgg
    obtain ⟨x, _, rfl⟩ := List.mem_map.mp hd
    exact Or.inr ⟨pad3 x, rfl, pad3_ne_nil x, pad3_digits x⟩

theorem flatten_render_digits (g : Nat) (gs : List Nat) :
    ∀ c ∈ List.flatten (natToChars g :: gs.map pad3), c.isDigit = true := by
  intro c hc
  rw [List.flatten_cons] at hc
  rcases List.mem_append.mp hc with h1 | h2
  · exact natToChars_digits g c h1
  · obtain ⟨l, hl, hcl⟩ := List.mem_flatten.mp h2
    obtain ⟨x, _, rfl⟩ := List.mem_map.mp hl
    exact pad3_digits x c hcl

theorem flatten_render_ne_nil (g : Nat) (gs : List Nat) :
    List.flatten (natToChars g :: gs.map pad3) ≠ [] := by
  rw [List.flatten_cons]
  intro h
  exact natToChars_ne_nil g (List.append_eq_nil.mp h).1

/-- C10: classifying the currency string the program renders for a
positive amount `n` accepts it and converts it back to exactly `n` — the
formatted string matches the salary grammar, and stripping `'$'` and
commas recovers the amount. -/
theorem c10_format_classify_roundtrip :
    ∀ n : Nat, 1 ≤ n → ∃ s : String,
      display_salary n = some s ∧
      extract_salary s = some (SalaryValue.Valid ((n : Nat) : Int)) := by
  intro n hn
  refine ⟨formatCurrency n, display_salary_eq_formatCurrency (by omega), ?_⟩
  obtain ⟨g, gs, hsg⟩ : ∃ g gs, specGroups n = g :: gs := by
    cases hx : specGroups n with
    | nil => exact absurd hx (specGroups_ne_nil n)
    | cons a b => exact ⟨a, b, rfl⟩
  have hdata : (formatCurrency n).data = '$' :: joinComma (natToChars g :: gs.map pad3) := by
    unfold formatCurrency
    rw [hsg]
  have hgram : inGrammar (formatCurrency n).data := by
    rw [hdata]
    exact inGrammar_render g gs
  have hsearch : salary_re_search (formatCurrency n) = true :=
    (salary_re_search_iff _).mpr (Or.inl (inPyGrammar_of_inGrammar hgram))
  unfold extract_salary
  rw [if_pos hsearch, hdata, stripSalaryChars_render,
    pyInt_digits (flatten_render_ne_nil g gs) (flatten_render_digits g gs),
    charsToNat_flatten_specGroups n g gs hsg]
  rfl

/-- Witness for C10 at the concrete positive amount 7654321. -/
theorem c10_witness :
    ∃ s : String, display_salary 7654321 = some s ∧
      extract_salary s = some (SalaryValue.Valid ((7654321 : Nat) : Int)) :=
  c10_format_classify_roundtrip 7654321 (by norm_num)

/-! ## The bounded insertion: position characterisation -/

theorem insPos_some_lt {α : Type} (gt : α → α → Bool) (v : α) :
    ∀ (l : List (Option α)) (i : Nat), insPos gt v l = some i → i < l.length := by
  intro l
  induction l with
  | nil => intro i h; cases h
  | cons x rest ih =>
    intro i h
    unfold insPos at h
    by_cases hx : slotOpen gt v x = true
    · rw [if_pos hx] at h
      injection h with h
      subst h
      simp
    · rw [if_neg hx] at h
      cases hp : insPos gt v rest with
      | none => rw [hp] at h; cases h
      | some j =>
        rw [hp] at h
        injection h with h
        subst h
        have := ih j hp
        simpa using Nat.succ_lt_succ this

theorem insert_eq_of_insPos_none {α : Type} (gt : α → α → Bool) (v : α) :
    ∀ l : List (Option α), insPos gt v l = none →
      insert_in_limited_array gt v l = l := by
  intro l
  induction l with
  | nil => intro _; rfl
  | cons x rest ih =>
    intro h
    unfold insPos at h
    unfold insert_in_limited_array
    by_cases hx : slotOpen gt v x = true
    · rw [if_pos hx] at h; cases h
    · rw [if_neg hx] at h
      rw [if_neg hx]
      congr 1
      apply ih
      cases hp : insPos gt v rest with
      | none => rfl
      | some j => rw [hp] at h; cases h

theorem insPos_none_iff {α : Type} (gt : α → α → Bool) (v : α) :
    ∀ l : List (Option α), insPos gt v l = none ↔ ∀ x ∈ l, slotOpen gt v x = false := by
  intro l
  induction l with
  | nil => simp [insPos]
  | cons x rest ih =>
    unfold insPos
    by_cases hx : slotOpen gt v x = true
    · rw [if_pos hx]
      simp [hx]
    · rw [if_neg hx]
      constructor
      · intro h y hy
        rcases List.mem_cons.mp hy with rfl | hy
        · exact Bool.eq_false_iff.mpr hx
        · cases hp : insPos gt v rest with
          | none => exact (ih.mp hp) y hy
          | some j => rw [hp] at h; cases h
      · intro h
        have : insPos gt v rest = none := ih.mpr (fun y hy => h y (by simp [hy]))
        rw [this]
        rfl

theorem insert_eq_splice {α : Type} (gt : α → α → Bool) (v : α) :
    ∀ (l : List (Option α)) (i : Nat), insPos gt v l = some i →
      insert_in_limited_array gt v l = l.take i ++ some v :: (l.drop i).dropLast := by
  intro l
  induction l with
  | nil => intro i h; cases h
  | cons x rest ih =>
    intro i h
    unfold insPos at h
    unfold insert_in_limited_array
    by_cases hx : slotOpen gt v x = true
    · rw [if_pos hx] at h
      injection h with h
      subst h
      rw [if_pos hx]
      simp
    · rw [if_neg hx] at h
      cases hp : insPos gt v rest with
      | none => rw [hp] at h; cases h
      | some j =>
        rw [hp] at h
        injection h with h
        subst h
        rw [if_neg hx, ih j hp, List.take_succ_cons, List.drop_succ_cons, List.cons_append]

theorem insPos_before {α : Type} (gt : α → α → Bool) (v : α) :
    ∀ (l : List (Option α)) (i : Nat), insPos gt v l = some i →
      ∀ k, k < i → ∀ x, l[k]? = some x → slotOpen gt v x = false := by
  intro l
  induction l with
  | nil => intro i h; cases h
  | cons y rest ih =>
    intro i h k hk x hx
    unfold insPos at h
    by_cases hy : slotOpen gt v y = true
    · rw [if_pos hy] at h
      injection h with h
      omega
    · rw [if_neg hy] at h
      cases hp : insPos gt v rest with
      | none => rw [hp] at h; cases h
      | some j =>
        rw [hp] at h
        injection h with h
        subst h
        cases k with
        | zero =>
          rw [List.getElem?_cons_zero] at hx
          injection hx with hx
          subst hx
          exact Bool.eq_false_iff.mpr hy
        | succ k =>
          rw [List.getElem?_cons_succ] at hx
          exact ih j hp k (Nat.lt_of_succ_lt_succ hk) x hx

theorem insPos_at {α : Type} (gt : α → α → Bool) (v : α) :
    ∀ (l : List (Option α)) (i : Nat), insPos gt v l = some i →
      ∃ x, l[i]? = some x ∧ slotOpen gt v x = true := by
  intro l
  induction l with
  | nil => intro i h; cases h
  | cons y rest ih =>
    intro i h
    unfold insPos at h
    by_cases hy : slotOpen gt v y = true
    · rw [if_pos hy] at h
      injection h with h
      subst h
      exact ⟨y, List.getElem?_cons_zero, hy⟩
    · rw [if_neg hy] at h
      cases hp : insPos gt v rest with
      | none => rw [hp] at h; cases h
      | some j =>
        rw [hp] at h
        injection h with h
        subst h
        obtain ⟨x, hx, hopen⟩ := ih j hp
        exact ⟨x, by rw [List.getElem?_cons_succ]; exact hx, hopen⟩

theorem splice_getElem_lt {α : Type} (l : List (Option α)) (v : α) {i : Nat}
    (hi : i ≤ l.length) (k : Nat) (hk : k < i) :
    (l.take i ++ some v :: (l.drop i).dropLast)[k]? = l[k]? := by
  rw [List.getElem?_append_left (by rw [List.length_take]; omega),
    List.getElem?_take_of_lt hk]

theorem splice_getElem_self {α : Type} (l : List (Option α)) (v : α) {i : Nat}
    (hi : i ≤ l.length) :
    (l.take i ++ some v :: (l.drop i).dropLast)[i]? = some (some v) := by
  rw [List.getElem?_append_right (by rw [List.length_take]; omega)]
  rw [List.length_take, Nat.min_eq_left hi]
  simp

/-! ## C5 — tie stability of the bounded insertion -/

theorem gtSalary_valid {a b : Player} {x y : Int}
    (ha : a.salary = SalaryValue.Valid x) (hb : b.salary = SalaryValue.Valid y) :
    gtSalary a b = decide (y < x) := by
  unfold gtSalary
  rw [ha, hb]

theorem slotOpen_congr_of_same_salary {A B : Player} {a : Int}
    (hA : A.salary = SalaryValue.Valid a) (hB : B.salary = SalaryValue.Valid a) :
    ∀ x : Option Player, slotOpen gtSalary B x = slotOpen gtSalary A x := by
  intro x
  cases x with
  | none => rfl
  | some q =>
    show gtSalary B q = gtSalary A q
    unfold gtSalary
    rw [hA, hB]

/-- C5: inserting two valid records of equal salary, first `A` then `B`,
never places `B` at or before `A`'s slot: if `A` was not inserted at all,
neither is `B` (the array is unchanged); if `A` was inserted at index `i`,
then after `B`'s insertion `A` still occupies index `i`, and whenever `B`
is inserted at all it lands at some strictly later index `j`. -/
theorem c5_tie_stability :
    ∀ (arr : List (Option Player)) (A B : Player) (a : Int),
      A.salary = SalaryValue.Valid a → B.salary = SalaryValue.Valid a →
      (insPos gtSalary A arr = none →
        insert_in_limited_array gtSalary B (insert_in_limited_array gtSalary A arr) = arr) ∧
      (∀ i, insPos gtSalary A arr = some i →
        (insert_in_limited_array gtSalary B (insert_in_limited_array gtSalary A arr))[i]?
          = some (some A) ∧
        ∀ j, insPos gtSalary B (insert_in_limited_array gtSalary A arr) = some j →
          i < j ∧
          (insert_in_limited_array gtSalary B (insert_in_limited_array gtSalary A arr))[j]?
            = some (some B)) := by
  intro arr A B a hA hB
  constructor
  · intro hnone
    have h1 : insert_in_limited_array gtSalary A arr = arr :=
      insert_eq_of_insPos_none _ _ _ hnone
    rw [h1]
    apply insert_eq_of_insPos_none
    rw [insPos_none_iff] at hnone ⊢
    intro x hx
    rw [slotOpen_congr_of_same_salary hA hB x]
    exact hnone x hx
  · intro i hi
    have hilt : i < arr.length := insPos_some_lt _ _ _ _ hi
    have hsplice := insert_eq_splice gtSalary A arr i hi
    have harr1_lt : ∀ k, k < i →
        (insert_in_limited_array gtSalary A arr)[k]? = arr[k]? := by
      intro k hk
      rw [hsplice]
      exact splice_getElem_lt arr A (le_of_lt hilt) k hk
    have harr1_i : (insert_in_limited_array gtSalary A arr)[i]? = some (some A) := by
      rw [hsplice]
      exact splice_getElem_self arr A (le_of_lt hilt)
    have hclosed : ∀ k, k ≤ i → ∀ x,
        (insert_in_limited_array gtSalary A arr)[k]? = some x →
        slotOpen gtSalary B x = false := by
      intro k hk x hx
      rcases Nat.lt_or_ge k i with hlt | hge
      · rw [harr1_lt k hlt] at hx
        rw [slotOpen_congr_of_same_salary hA hB]
        exact insPos_before gtSalary A arr i hi k hlt x hx
      · have hk' : k = i := le_antisymm hk hge
        subst hk'
        rw [harr1_i] at hx
        injection hx with hx
        subst hx
        show gtSalary B A = false
        rw [gtSalary_valid hB hA]
        simp
    have hij_of : ∀ j, insPos gtSalary B (insert_in_limited_array gtSalary A arr) = some j →
        i < j := by
      intro j hj
      by_contra hle
      push_neg at hle
      obtain ⟨x, hx, hopen⟩ := insPos_at gtSalary B _ j hj
      rw [hclosed j hle x hx] at hopen
      cases hopen
    constructor
    · cases hj : insPos gtSalary B (insert_in_limited_array gtSalary A arr) with
      | none =>
        rw [insert_eq_of_insPos_none _ _ _ hj]
        exact harr1_i
      | some j =>
        have hij : i < j := hij_of j hj
        have hjlt : j < (insert_in_limited_array gtSalary A arr).length :=
          insPos_some_lt _ _ _ _ hj
        rw [insert_eq_splice gtSalary B _ j hj,
          splice_getElem_lt _ B (le_of_lt hjlt) i hij]
        exact harr1_i
    · intro j hj
      refine ⟨hij_of j hj, ?_⟩
      rw [insert_eq_splice gtSalary B _ j hj]
      exact splice_getElem_self _ B (le_of_lt (insPos_some_lt _ _ _ _ hj))

/-- Witness for C5 at a concrete two-slot array and two tied records. -/
theorem c5_witness :
    (insert_in_limited_array gtSalary ⟨"B", SalaryValue.Valid 5, "2021", "MLB"⟩
        (insert_in_limited_array gtSalary ⟨"A", SalaryValue.Valid 5, "2021", "MLB"⟩
          [none, none]))[0]? = some (some ⟨"A", SalaryValue.Valid 5, "2021", "MLB"⟩) ∧
    0 < 1 ∧
    (insert_in_limited_array gtSalary ⟨"B", SalaryValue.Valid 5, "2021", "MLB"⟩
        (insert_in_limited_array gtSalary ⟨"A", SalaryValue.Valid 5, "2021", "MLB"⟩
          [none, none]))[1]? = some (some ⟨"B", SalaryValue.Valid 5, "2021", "MLB"⟩) := by
  have h := (c5_tie_stability [none, none] ⟨"A", SalaryValue.Valid 5, "2021", "MLB"⟩
    ⟨"B", SalaryValue.Valid 5, "2021", "MLB"⟩ 5 rfl rfl).2 0 (by decide)
  exact ⟨h.1, h.2 1 (by decide)⟩

/-! ## C2 — the ranked-set invariant -/

theorem exists_valid {p : Player} (h : isValidSalary p.salary = true) :
    ∃ n, p.salary = SalaryValue.Valid n := by
  cases hs : p.salary with
  | Valid n => exact ⟨n, rfl⟩
  | Corrupted s => rw [hs] at h; simp [isValidSalary] at h

theorem amount_of {p : Player} {n : Int} (h : p.salary = SalaryValue.Valid n) :
    amount p = n := by
  unfold amount
  rw [h]

theorem gtSalary_true_iff {a b : Player} (ha : isValidSalary a.salary = true)
    (hb : isValidSalary b.salary = true) :
    gtSalary a b = true ↔ amount b < amount a := by
  obtain ⟨x, hx⟩ := exists_valid ha
  obtain ⟨y, hy⟩ := exists_valid hb
  rw [gtSalary_valid hx hy]
  simp [amount_of hx, amount_of hy]

theorem gtSalary_false_iff {a b : Player} (ha : isValidSalary a.salary = true)
    (hb : isValidSalary b.salary = true) :
    gtSalary a b = false ↔ amount a ≤ amount b := by
  rw [← Bool.not_eq_true, gtSalary_true_iff ha hb]
  exact not_lt

theorem slotLE_refl : ∀ x : Option Player, SlotLE x x := by
  intro x
  cases x with
  | none => exact trivial
  | some a => exact le_refl (amount a)

theorem pairwise_slotLE_getLast? :
    ∀ l : List (Option Player), l.Pairwise SlotLE →
      ∀ z, l.getLast? = some z → ∀ y ∈ l, SlotLE y z := by
  intro l
  induction l with
  | nil => intro _ z hz; cases hz
  | cons x rest ih =>
    intro hp z hz y hy
    obtain ⟨hhead, htail⟩ := List.pairwise_cons.mp hp
    cases rest with
    | nil =>
      simp at hz
      subst hz
      rcases List.mem_singleton.mp hy with rfl
      exact slotLE_refl _
    | cons r t =>
      have hz' : (r :: t).getLast? = some z := hz
      rcases List.mem_cons.mp hy with rfl | hy2
      · exact hhead z (List.mem_of_mem_getLast? hz')
      · exact ih htail z hz' y hy2

theorem mem_insert_in_limited_array {α : Type} (gt : α → α → Bool) (v : α) :
    ∀ (l : List (Option α)) (y : Option α),
      y ∈ insert_in_limited_array gt v l → y = some v ∨ y ∈ l := by
  intro l
  induction l with
  | nil => intro y h; cases h
  | cons x rest ih =>
    intro y h
    unfold insert_in_limited_array at h
    by_cases hx : slotOpen gt v x = true
    · rw [if_pos hx] at h
      have hsub : y ∈ some v :: x :: rest := List.dropLast_subset _ h
      rcases List.mem_cons.mp hsub with rfl | h2
      · exact Or.inl rfl
      · exact Or.inr h2
    · rw [if_neg hx] at h
      rcases List.mem_cons.mp h with rfl | h2
      · exact Or.inr (List.mem_cons_self _ _)
      · rcases ih y h2 with h3 | h3
        · exact Or.inl h3
        · exact Or.inr (List.mem_cons_of_mem _ h3)

theorem allValid_insert {v : Player} (hv : isValidSalary v.salary = true)
    {l : List (Option Player)} (h : allValid l) :
    allValid (insert_in_limited_array gtSalary v l) := by
  intro p hp
  rcases mem_insert_in_limited_array gtSalary v l (some p) hp with h1 | h1
  · injection h1 with h1
    subst h1
    exact hv
  · exact h p h1

/-- Ordered bounded insertion of a valid record preserves the ranked-array
invariant (sorted descending, empty slots at the tail, occupants valid). -/
theorem ranked_insert {v : Player} (hv : isValidSalary v.salary = true) :
    ∀ l : List (Option Player), Ranked l →
      Ranked (insert_in_limited_array gtSalary v l) := by
  intro l
  induction l with
  | nil => intro h; exact h
  | cons x rest ih =>
    intro hR
    obtain ⟨hp, hval⟩ := hR
    obtain ⟨hhead, htail⟩ := List.pairwise_cons.mp hp
    cases x with
    | none =>
      have hrest_none : ∀ y ∈ rest, y = none := by
        intro y hy
        cases y with
        | none => rfl
        | some q => exact (hhead (some q) hy).elim
      unfold insert_in_limited_array
      rw [if_pos (show slotOpen gtSalary v none = true from rfl)]
      have hfull : (some v :: none :: rest).Pairwise SlotLE := by
        apply List.pairwise_cons.mpr
        refine ⟨?_, hp⟩
        intro y hy
        rcases List.mem_cons.mp hy with rfl | hy2
        · exact trivial
        · rw [hrest_none y hy2]
          exact trivial
      refine ⟨hfull.sublist (List.dropLast_sublist _), ?_⟩
      intro p hp2
      have hmem := List.dropLast_subset _ hp2
      rcases List.mem_cons.mp hmem with h1 | h1
      · injection h1 with h1
        subst h1
        exact hv
      · exact hval p h1
    | some q =>
      have hqval : isValidSalary q.salary = true := hval q (List.mem_cons_self _ _)
      by_cases hgt : gtSalary v q = true
      · unfold insert_in_limited_array
        rw [if_pos (show slotOpen gtSalary v (some q) = true from hgt)]
        have hlt : amount q < amount v := (gtSalary_true_iff hv hqval).mp hgt
        have hfull : (some v :: some q :: rest).Pairwise SlotLE := by
          apply List.pairwise_cons.mpr
          refine ⟨?_, hp⟩
          intro y hy
          rcases List.mem_cons.mp hy with rfl | hy2
          · exact le_of_lt hlt
          · cases y with
            | none => exact trivial
            | some q2 =>
              have hle : amount q2 ≤ amount q := hhead (some q2) hy2
              exact le_trans hle (le_of_lt hlt)
        refine ⟨hfull.sublist (List.dropLast_sublist _), ?_⟩
        intro p hp2
        have hmem := List.dropLast_subset _ hp2
        rcases List.mem_cons.mp hmem with h1 | h1
        · injection h1 with h1
          subst h1
          exact hv
        · exact hval p h1
      · unfold insert_in_limited_array
        rw [if_neg (show ¬ slotOpen gtSalary v (some q) = true from hgt)]
        have hih := ih ⟨htail, fun p hp2 => hval p (List.mem_cons_of_mem _ hp2)⟩
        refine ⟨?_, ?_⟩
        · apply List.pairwise_cons.mpr
          refine ⟨?_, hih.1⟩
          intro y hy
          rcases mem_insert_in_limited_array gtSalary v rest y hy with rfl | hy2
          · exact (gtSalary_false_iff hv hqval).mp (Bool.eq_false_iff.mpr hgt)
          · exact hhead y hy2
        · intro p hp2
          rcases List.mem_cons.mp hp2 with h1 | h1
          · injection h1 with h1
            subst h1
            exact hqval
          · exact hih.2 p h1

theorem getLast?_drop_eq {α : Type} :
    ∀ (l : List α) (i : Nat), i < l.length → (l.drop i).getLast? = l.getLast? := by
  intro l
  induction l with
  | nil => intro i h; simp at h
  | cons x rest ih =>
    intro i h
    cases i with
    | zero => rfl
    | succ i =>
      rw [List.drop_succ_cons, ih i (by simpa using h)]
      have hrest : rest ≠ [] := by
        intro hr
        subst hr
        simp at h
      obtain ⟨r, t, rfl⟩ := List.exists_cons_of_ne_nil hrest
      rfl

theorem mem_dropLast_or_getLast? {α : Type} :
    ∀ (m : List α) (y : α), y ∈ m → y ∈ m.dropLast ∨ m.getLast? = some y := by
  intro m
  induction m with
  | nil => intro y hy; cases hy
  | cons x rest ih =>
    intro y hy
    cases rest with
    | nil =>
      rcases List.mem_singleton.mp hy with rfl
      exact Or.inr rfl
    | cons r t =>
      rcases List.mem_cons.mp hy with rfl | hy2
      · exact Or.inl (List.mem_cons_self _ _)
      · rcases ih y hy2 with h1 | h1
        · exact Or.inl (List.mem_cons_of_mem _ h1)
        · exact Or.inr h1

/-- An insertion never disturbs a legitimate exclusion: if the array is
full with every occupant earning at least `amount p`, the same holds after
inserting any further valid record. -/
theorem excluded_insert {v p : Player} (hv : isValidSalary v.salary = true)
    {l : List (Option Player)} (hR : Ranked l) (hE : Excluded p l) :
    Excluded p (insert_in_limited_array gtSalary v l) := by
  obtain ⟨hfull, hge⟩ := hE
  cases hpos : insPos gtSalary v l with
  | none =>
    rw [insert_eq_of_insPos_none _ _ _ hpos]
    exact ⟨hfull, hge⟩
  | some i =>
    rw [insert_eq_splice _ _ _ _ hpos]
    constructor
    · intro x hx
      rcases List.mem_append.mp hx with h1 | h1
      · exact hfull x (List.take_subset _ _ h1)
      · rcases List.mem_cons.mp h1 with rfl | h2
        · simp
        · exact hfull x (List.drop_subset _ _ (List.dropLast_subset _ h2))
    · intro q hq
      rcases List.mem_append.mp hq with h1 | h1
      · exact hge q (List.take_subset _ _ h1)
      · rcases List.mem_cons.mp h1 with heq | h2
        · injection heq with heq
          subst heq
          obtain ⟨x, hxi, hopen⟩ := insPos_at _ _ _ _ hpos
          have hxmem : x ∈ l := List.getElem?_mem hxi
          cases x with
          | none => exact absurd rfl (hfull none hxmem)
          | some w =>
            have hwval : isValidSalary w.salary = true := hR.2 w hxmem
            have hlt : amount w < amount q := (gtSalary_true_iff hv hwval).mp hopen
            exact le_of_lt (lt_of_le_of_lt (hge w hxmem) hlt)
        · exact hge q (List.drop_subset _ _ (List.dropLast_subset _ h2))

/-- A record already in a ranked array either survives an insertion or
leaves behind a full array whose occupants all earn at least as much. -/
theorem presence_insert {v p : Player} (hv : isValidSalary v.salary = true)
    {l : List (Option Player)} (hR : Ranked l) (hmem : some p ∈ l) :
    some p ∈ insert_in_limited_array gtSalary v l ∨
      Excluded p (insert_in_limited_array gtSalary v l) := by
  cases hpos : insPos gtSalary v l with
  | none =>
    rw [insert_eq_of_insPos_none _ _ _ hpos]
    exact Or.inl hmem
  | some i =>
    have hilt := insPos_some_lt _ _ _ _ hpos
    by_cases hmem2 : some p ∈ insert_in_limited_array gtSalary v l
    · exact Or.inl hmem2
    · right
      rw [insert_eq_splice _ _ _ _ hpos] at hmem2
      have hlast : l.getLast? = some (some p) := by
        have hsplit : some p ∈ l.take i ++ l.drop i := by
          rw [List.take_append_drop]
          exact hmem
        rcases List.mem_append.mp hsplit with h1 | h1
        · exact absurd (List.mem_append.mpr (Or.inl h1)) hmem2
        · rcases mem_dropLast_or_getLast? _ _ h1 with h2 | h2
          · exact absurd
              (List.mem_append.mpr (Or.inr (List.mem_cons_of_mem _ h2))) hmem2
          · rw [← getLast?_drop_eq l i hilt]
            exact h2
      have hle := pairwise_slotLE_getLast? l hR.1 (some p) hlast
      have hfull : ∀ x ∈ l, x ≠ none := by
        intro x hx
        cases x with
        | some _ => simp
        | none => exact (hle none hx).elim
      have hge : ∀ q : Player, some q ∈ l → amount p ≤ amount q := by
        intro q hq
        exact hle (some q) hq
      exact excluded_insert hv hR ⟨hfull, hge⟩

/-- A freshly ingested valid record either sits in the array or was
legitimately dropped (full array, every occupant at least as large). -/
theorem self_insert {v : Player} (hv : isValidSalary v.salary = true)
    {l : List (Option Player)} (hR : Ranked l) :
    some v ∈ insert_in_limited_array gtSalary v l ∨
      Excluded v (insert_in_limited_array gtSalary v l) := by
  cases hpos : insPos gtSalary v l with
  | some i =>
    left
    rw [insert_eq_splice _ _ _ _ hpos]
    exact List.mem_append.mpr (Or.inr (List.mem_cons_self _ _))
  | none =>
    right
    rw [insert_eq_of_insPos_none _ _ _ hpos]
    have hclosed := (insPos_none_iff gtSalary v l).mp hpos
    constructor
    · intro x hx
      cases x with
      | some _ => simp
      | none =>
        have hno := hclosed none hx
        simp [slotOpen] at hno
    · intro q hq
      have hcl := hclosed (some q) hq
      have hqval : isValidSalary q.salary = true := hR.2 q hq
      exact (gtSalary_false_iff hv hqval).mp hcl

theorem ranked_ingest (st : List (Option Player) × Nat) (r : Player)
    (hR : Ranked st.1) : Ranked (ingestStep st r).1 := by
  unfold ingestStep
  by_cases hr : isValidSalary r.salary = true
  · rw [if_pos hr]
    exact ranked_insert hr st.1 hR
  · rw [if_neg hr]
    exact hR

theorem presence_ingest (st : List (Option Player) × Nat) (r p : Player)
    (hR : Ranked st.1) (h : some p ∈ st.1 ∨ Excluded p st.1) :
    some p ∈ (ingestStep st r).1 ∨ Excluded p (ingestStep st r).1 := by
  unfold ingestStep
  by_cases hr : isValidSalary r.salary = true
  · rw [if_pos hr]
    rcases h with h1 | h1
    · exact presence_insert hr hR h1
    · exact Or.inr (excluded_insert hr hR h1)
  · rw [if_neg hr]
    exact h

/-- The full aggregation loop: the invariant holds at the end, exclusions
are stable, and every valid input record is accounted for. -/
theorem crawl_fold_inv (ps : List Player) :
    ∀ st : List (Option Player) × Nat, Ranked st.1 →
      Ranked (ps.foldl ingestStep st).1 ∧
      (∀ p : Player, (some p ∈ st.1 ∨ Excluded p st.1) →
        (some p ∈ (ps.foldl ingestStep st).1 ∨ Excluded p (ps.foldl ingestStep st).1)) ∧
      (∀ p ∈ ps, isValidSalary p.salary = true →
        (some p ∈ (ps.foldl ingestStep st).1 ∨ Excluded p (ps.foldl ingestStep st).1)) := by
  induction ps with
  | nil =>
    intro st hR
    exact ⟨hR, fun p h => h, by simp⟩
  | cons r ps ih =>
    intro st hR
    have hR' := ranked_ingest st r hR
    obtain ⟨hRf, hPres, hNew⟩ := ih (ingestStep st r) hR'
    rw [List.foldl_cons]
    refine ⟨hRf, ?_, ?_⟩
    · intro p h
      exact hPres p (presence_ingest st r p hR h)
    · intro p hp hval
      rcases List.mem_cons.mp hp with rfl | hp2
      · apply hPres
        unfold ingestStep
        rw [if_pos hval]
        exact self_insert hval hR
      · exact hNew p hp2 hval

/-- C2: after ingesting any record sequence into the fresh capacity-125
array, (1) occupied slots are sorted in descending salary order, (2) an
empty slot is never followed by an occupied one (empty slots only at the
tail), (3) every valid input record is either in the array, or the array
is at capacity with every occupant's salary at least the record's salary
(corrupted records are never placed), and (4) a valid record whose amount
is at most every occupant's salary of a full array is dropped entirely —
the insertion leaves the array unchanged. -/
theorem c2_ranked_set_correctness :
    ∀ ps : List Player,
      (∀ (i j : Nat) (hi : i < (crawl_players ps).ranked.length)
          (hj : j < (crawl_players ps).ranked.length), i < j →
          ∀ pi pj : Player, (crawl_players ps).ranked[i] = some pi →
            (crawl_players ps).ranked[j] = some pj → amount pj ≤ amount pi) ∧
      (∀ (i j : Nat) (hi : i < (crawl_players ps).ranked.length)
          (hj : j < (crawl_players ps).ranked.length), i ≤ j →
          (crawl_players ps).ranked[i] = none → (crawl_players ps).ranked[j] = none) ∧
      (∀ p ∈ ps, isValidSalary p.salary = true →
        (some p ∈ (crawl_players ps).ranked ∨
          ((∀ x ∈ (crawl_players ps).ranked, x ≠ none) ∧
            ∀ q : Player, some q ∈ (crawl_players ps).ranked → amount p ≤ amount q))) ∧
      (∀ (arr : List (Option Player)) (v : Player), isValidSalary v.salary = true →
        (∀ x ∈ arr, ∃ q : Player, x = some q ∧ isValidSalary q.salary = true ∧
          amount v ≤ amount q) →
        insert_in_limited_array gtSalary v arr = arr) := by
  intro ps
  have hinit : Ranked (List.replicate 125 (none : Option Player)) := by
    constructor
    · have hall : ∀ n : Nat, (List.replicate n (none : Option Player)).Pairwise SlotLE := by
        intro n
        induction n with
        | zero => exact List.Pairwise.nil
        | succ n ihn =>
          rw [List.replicate_succ]
          apply List.pairwise_cons.mpr
          refine ⟨?_, ihn⟩
          intro y hy
          rcases List.eq_of_mem_replicate hy with rfl
          exact trivial
      exact hall 125
    · intro p hp
      cases List.eq_of_mem_replicate hp
  obtain ⟨hRf, _, hNew⟩ := crawl_fold_inv ps (List.replicate 125 none, 0) hinit
  have hr_eq : (crawl_players ps).ranked
      = (ps.foldl ingestStep (List.replicate 125 none, 0)).1 := rfl
  rw [← hr_eq] at hRf hNew
  refine ⟨?_, ?_, ?_, ?_⟩
  · intro i j hi hj hij pi pj hgi hgj
    have hpw := List.pairwise_iff_getElem.mp hRf.1 i j hi hj hij
    rw [hgi, hgj] at hpw
    exact hpw
  · intro i j hi hj hij hni
    by_cases heq : i = j
    · subst heq
      exact hni
    · have hlt : i < j := lt_of_le_of_ne hij heq
      have hpw := List.pairwise_iff_getElem.mp hRf.1 i j hi hj hlt
      rw [hni] at hpw
      cases hx : (crawl_players ps).ranked[j] with
      | none => rfl
      | some q =>
        rw [hx] at hpw
        exact hpw.elim
  · intro p hp hval
    exact hNew p hp hval
  · intro arr v hv hcl
    apply insert_eq_of_insPos_none
    rw [insPos_none_iff]
    intro x hx
    obtain ⟨q, rfl, hqval, hle⟩ := hcl x hx
    show gtSalary v q = false
    exact (gtSalary_false_iff hv hqval).mpr hle

/-- Witness for C2's hypotheses at a concrete full single-slot array and a
tying record: the insertion drops the incoming record entirely. -/
theorem c2_witness :
    insert_in_limited_array gtSalary ⟨"B", SalaryValue.Valid 7, "2021", "MLB"⟩
      [some ⟨"A", SalaryValue.Valid 7, "2021", "MLB"⟩]
      = [some ⟨"A", SalaryValue.Valid 7, "2021", "MLB"⟩] :=
  (c2_ranked_set_correctness []).2.2.2
    [some ⟨"A", SalaryValue.Valid 7, "2021", "MLB"⟩]
    ⟨"B", SalaryValue.Valid 7, "2021", "MLB"⟩ (by decide)
    (fun x hx => by
      rcases List.mem_singleton.mp hx with rfl
      exact ⟨⟨"A", SalaryValue.Valid 7, "2021", "MLB"⟩, rfl, by decide, by decide⟩)
